import Mathlib

/-!
Verification of the socmed Instagram pipeline core: the JSON record store
(`socmed/storage/json_store.py`), the browser enricher
(`socmed/platforms/instagram/browser_enricher.py`) and the media extractor
(`socmed/platforms/instagram/media_extractor.py`), shallowly embedded in Lean.

Python strings are modelled as lists of Unicode code points (`PyStr`), so
that lone surrogates (code points 0xD800–0xDFFF), which are the subject of
the store's sanitization pass, are representable.  JSON values are modelled
by the inductive `Value`.  Field names of JSON objects are modelled as Lean
`String`s (the code never sanitizes or otherwise transforms dict keys in a
way the claims depend on).
-/

/-- Python `str` as a list of Unicode code points (0 ≤ c < 0x110000;
surrogates 0xD800–0xDFFF may appear, which is what distinguishes a Python
`str` from a Lean `String`). -/
abbrev PyStr : Type := List Nat

/-- Code points the UTF-8 codec cannot encode: the surrogate range. -/
def isLoneSurrogate (c : Nat) : Bool := decide (0xD800 ≤ c) && decide (c ≤ 0xDFFF)

/-- Standard UTF-8 encoding of one Unicode scalar value (1–4 bytes by range). -/
def utf8EncodeScalar (c : Nat) : List Nat :=
  if c < 0x80 then [c]
  else if c < 0x800 then [0xC0 + c / 0x40, 0x80 + c % 0x40]
  else if c < 0x10000 then [0xE0 + c / 0x1000, 0x80 + c / 0x40 % 0x40, 0x80 + c % 0x40]
  else [0xF0 + c / 0x40000, 0x80 + c / 0x1000 % 0x40, 0x80 + c / 0x40 % 0x40, 0x80 + c % 0x40]

/-- One character of Python's `s.encode("utf-8", errors="replace")`.
CPython's `replace` error handler substitutes `b"?"` (0x3F) for each
character the codec cannot encode; for the UTF-8 codec those are exactly
the lone surrogates.  (Code points ≥ 0x110000 cannot occur in a Python
`str`; they are mapped to `"?"` as well only to keep this function total.) -/
def pyEncodeUtf8ReplaceChar (c : Nat) : List Nat :=
  if isLoneSurrogate c || decide (0x110000 ≤ c) then [0x3F] else utf8EncodeScalar c

/-- One step of a UTF-8 decoder: decode the code point whose first byte is
`b`, returning it and the remaining bytes.  The byte count is determined by
the range of `b`; on input that is not valid UTF-8 this yields junk, a case
that never arises below. -/
def utf8DecodeStep (b : Nat) (bs : List Nat) : Nat × List Nat :=
  if b < 0x80 then (b, bs)
  else if b < 0xE0 then ((b - 0xC0) * 0x40 + (bs.getD 0 0 - 0x80), bs.drop 1)
  else if b < 0xF0 then
    ((b - 0xE0) * 0x1000 + (bs.getD 0 0 - 0x80) * 0x40 + (bs.getD 1 0 - 0x80), bs.drop 2)
  else
    ((b - 0xF0) * 0x40000 + (bs.getD 0 0 - 0x80) * 0x1000 + (bs.getD 1 0 - 0x80) * 0x40
        + (bs.getD 2 0 - 0x80), bs.drop 3)

/-- Fuelled decoding loop; the fuel is an upper bound on the number of
bytes, so the `0` case with bytes left over is unreachable. -/
def utf8DecodeAux : Nat → List Nat → List Nat
  | _, [] => []
  | 0, _ :: _ => [0xFFFD]
  | fuel + 1, b :: bs =>
      let s := utf8DecodeStep b bs
      s.1 :: utf8DecodeAux fuel s.2

/-- Python `bytes.decode("utf-8")` on the byte strings produced by the
encoder above. -/
def utf8Decode (l : List Nat) : List Nat := utf8DecodeAux l.length l

/-- `json_store._sanitize_surrogates` on a single string:
`obj.encode("utf-8", errors="replace").decode("utf-8")`. -/
def sanitizePyStr (s : PyStr) : PyStr :=
  utf8Decode (List.flatMap s pyEncodeUtf8ReplaceChar)

theorem utf8DecodeStep_rest_length (b : Nat) (bs : List Nat) :
    (utf8DecodeStep b bs).2.length ≤ bs.length := by
  rw [utf8DecodeStep]
  split
  · exact le_rfl
  · split
    · simp
    · split <;> simp

theorem utf8DecodeAux_fuel_irrel (f1 : Nat) : ∀ (f2 : Nat) (l : List Nat),
    l.length ≤ f1 → l.length ≤ f2 → utf8DecodeAux f1 l = utf8DecodeAux f2 l := by
  induction f1 with
  | zero =>
    intro f2 l h1 _
    have : l = [] := List.eq_nil_of_length_eq_zero (Nat.le_zero.mp h1)
    subst this
    cases f2 <;> rfl
  | succ g1 ih =>
    intro f2 l h1 h2
    cases l with
    | nil => cases f2 <;> rfl
    | cons b bs =>
      simp only [List.length_cons] at h1 h2
      cases f2 with
      | zero => omega
      | succ g2 =>
        rw [utf8DecodeAux, utf8DecodeAux]
        have hrest := utf8DecodeStep_rest_length b bs
        rw [ih g2 (utf8DecodeStep b bs).2 (by omega) (by omega)]

theorem utf8EncodeScalar_length_pos (c : Nat) : 0 < (utf8EncodeScalar c).length := by
  rw [utf8EncodeScalar]
  split
  · simp
  · split
    · simp
    · split <;> simp

/-- Decoding undoes the encoding of a genuine scalar value: a single
decode step consumes exactly the bytes of that scalar. -/
theorem utf8DecodeStep_encodeScalar (c : Nat) (hc : c < 0x110000)
    (_hs : ¬(0xD800 ≤ c ∧ c ≤ 0xDFFF)) (bs : List Nat) :
    ∃ b rest, utf8EncodeScalar c ++ bs = b :: rest ∧ utf8DecodeStep b rest = (c, bs) := by
  rw [utf8EncodeScalar]
  by_cases h1 : c < 0x80
  · refine ⟨c, bs, by simp [h1], ?_⟩
    rw [utf8DecodeStep, if_pos h1]
  · by_cases h2 : c < 0x800
    · refine ⟨0xC0 + c / 0x40, (0x80 + c % 0x40) :: bs, by simp [h1, h2], ?_⟩
      rw [utf8DecodeStep, if_neg (by omega), if_pos (by omega)]
      simp only [List.getD_cons_zero, List.drop_succ_cons, List.drop_zero]
      have hv : (0xC0 + c / 0x40 - 0xC0) * 0x40 + (0x80 + c % 0x40 - 0x80) = c := by omega
      rw [hv]
    · by_cases h3 : c < 0x10000
      · refine ⟨0xE0 + c / 0x1000, (0x80 + c / 0x40 % 0x40) :: (0x80 + c % 0x40) :: bs,
          by simp [h1, h2, h3], ?_⟩
        rw [utf8DecodeStep, if_neg (by omega), if_neg (by omega), if_pos (by omega)]
        simp only [List.getD_cons_zero, List.getD_cons_succ, List.drop_succ_cons,
          List.drop_zero]
        have hv : (0xE0 + c / 0x1000 - 0xE0) * 0x1000 + (0x80 + c / 0x40 % 0x40 - 0x80) * 0x40
            + (0x80 + c % 0x40 - 0x80) = c := by omega
        rw [hv]
      · refine ⟨0xF0 + c / 0x40000,
          (0x80 + c / 0x1000 % 0x40) :: (0x80 + c / 0x40 % 0x40) :: (0x80 + c % 0x40) :: bs,
          by simp [h1, h2, h3], ?_⟩
        rw [utf8DecodeStep, if_neg (by omega), if_neg (by omega), if_neg (by omega)]
        simp only [List.getD_cons_zero, List.getD_cons_succ, List.drop_succ_cons,
          List.drop_zero]
        have hv : (0xF0 + c / 0x40000 - 0xF0) * 0x40000 + (0x80 + c / 0x1000 % 0x40 - 0x80)
            * 0x1000 + (0x80 + c / 0x40 % 0x40 - 0x80) * 0x40 + (0x80 + c % 0x40 - 0x80)
            = c := by omega
        rw [hv]

/-- What one sanitized character contributes to the final string. -/
def sanitizeChar (c : Nat) : Nat :=
  if isLoneSurrogate c || decide (0x110000 ≤ c) then 0x3F else c

theorem utf8Decode_encChar (c : Nat) (bs : List Nat) :
    utf8Decode (pyEncodeUtf8ReplaceChar c ++ bs) = sanitizeChar c :: utf8Decode bs := by
  by_cases hrep : (isLoneSurrogate c || decide (0x110000 ≤ c)) = true
  · rw [pyEncodeUtf8ReplaceChar, if_pos hrep, sanitizeChar, if_pos hrep]
    show utf8DecodeAux (0x3F :: bs).length (0x3F :: bs) = 0x3F :: utf8Decode bs
    rw [List.length_cons, utf8DecodeAux]
    have hstep : utf8DecodeStep 0x3F bs = (0x3F, bs) := by
      rw [utf8DecodeStep, if_pos (by norm_num)]
    rw [hstep]
    rfl
  · rw [pyEncodeUtf8ReplaceChar, if_neg hrep, sanitizeChar, if_neg hrep]
    have hc : c < 0x110000 := by
      by_contra h
      exact hrep (by simp only [Bool.or_eq_true, decide_eq_true_eq]; right; omega)
    have hsur : ¬(0xD800 ≤ c ∧ c ≤ 0xDFFF) := by
      intro h
      exact hrep (by
        simp only [isLoneSurrogate, Bool.or_eq_true, Bool.and_eq_true, decide_eq_true_eq]
        exact Or.inl ⟨h.1, h.2⟩)
    obtain ⟨b, rest, henc, hstep⟩ := utf8DecodeStep_encodeScalar c hc hsur bs
    rw [utf8Decode, henc, List.length_cons, utf8DecodeAux, hstep]
    show c :: utf8DecodeAux rest.length bs = c :: utf8Decode bs
    congr 1
    have hlen : bs.length ≤ rest.length := by
      have h1 := congrArg List.length henc
      have h2 := utf8EncodeScalar_length_pos c
      simp only [List.length_append, List.length_cons] at h1
      omega
    exact utf8DecodeAux_fuel_irrel rest.length bs.length bs hlen le_rfl

/-- Characterization of the sanitizer: every lone surrogate becomes `"?"`
(0x3F) and every other code point is unchanged. -/
theorem sanitizePyStr_eq_map (s : PyStr) : sanitizePyStr s = List.map sanitizeChar s := by
  induction s with
  | nil => rfl
  | cons c cs ih =>
    show utf8Decode (pyEncodeUtf8ReplaceChar c ++ List.flatMap cs pyEncodeUtf8ReplaceChar)
        = sanitizeChar c :: List.map sanitizeChar cs
    rw [utf8Decode_encChar]
    rw [show utf8Decode (List.flatMap cs pyEncodeUtf8ReplaceChar) = sanitizePyStr cs from rfl, ih]

/-- Sanitization is idempotent (`"?"` is itself left alone). -/
theorem sanitizePyStr_idem (s : PyStr) : sanitizePyStr (sanitizePyStr s) = sanitizePyStr s := by
  simp only [sanitizePyStr_eq_map, List.map_map]
  apply List.map_congr_left
  intro c _
  simp only [Function.comp_apply]
  by_cases h : (isLoneSurrogate c || decide (0x110000 ≤ c)) = true
  · have h1 : sanitizeChar c = 0x3F := by rw [sanitizeChar, if_pos h]
    rw [h1]
    decide
  · have h1 : sanitizeChar c = c := by rw [sanitizeChar, if_neg h]
    rw [h1]
    exact h1

/-! ## JSON values and records

A JSON value as held in memory by the Python code.  Strings carry raw code
points (`PyStr`); object field names are Lean `String`s. -/

inductive Value where
  | str : List Nat → Value
  | int : Int → Value
  | bool : Bool → Value
  | null : Value
  | list : List Value → Value
  | dict : List (String × Value) → Value

/-- Python truthiness (`if key:`) of a JSON value: empty strings, zero,
`False`, `None`, and empty containers are falsy. -/
def Value.truthy : Value → Bool
  | .str s => !s.isEmpty
  | .int n => n != 0
  | .bool b => b
  | .null => false
  | .list l => !l.isEmpty
  | .dict d => !d.isEmpty

mutual
/-- Structural equality of JSON values (Python `==` used by `dict` key
lookup). -/
def beqV : Value → Value → Bool
  | .str a, .str b => a == b
  | .int a, .int b => a == b
  | .bool a, .bool b => a == b
  | .null, .null => true
  | .list a, .list b => beqVL a b
  | .dict a, .dict b => beqKV a b
  | _, _ => false
def beqVL : List Value → List Value → Bool
  | [], [] => true
  | a :: as, b :: bs => beqV a b && beqVL as bs
  | _, _ => false
def beqKV : List (String × Value) → List (String × Value) → Bool
  | [], [] => true
  | (k, a) :: as, (k', b) :: bs => k == k' && beqV a b && beqKV as bs
  | _, _ => false
end

theorem beqV_str_iff (v : Value) (s : List Nat) : beqV v (.str s) = true ↔ v = .str s := by
  cases v <;> simp [beqV]

mutual
/-- `_sanitize_surrogates`, recursively through nested dicts and lists.
Note the source sanitizes dict *values* only (`{k: _sanitize_surrogates(v)
for k, v in obj.items()}`); keys are passed through. -/
def sanitizeVal : Value → Value
  | .str s => .str (sanitizePyStr s)
  | .int n => .int n
  | .bool b => .bool b
  | .null => .null
  | .list vs => .list (sanitizeVL vs)
  | .dict kvs => .dict (sanitizeKV kvs)
def sanitizeVL : List Value → List Value
  | [] => []
  | v :: vs => sanitizeVal v :: sanitizeVL vs
def sanitizeKV : List (String × Value) → List (String × Value)
  | [] => []
  | (k, v) :: kvs => (k, sanitizeVal v) :: sanitizeKV kvs
end

/-- A JSON object (one record of the store): a Python dict with string
keys, in insertion order. -/
abbrev Record : Type := List (String × Value)

/-- Python `item.get(field)`: the value at `field`, or `None`-as-absent
(dict keys are unique, so first match is the match). -/
def recGet : Record → String → Option Value
  | [], _ => none
  | kv :: r, k => if kv.1 == k then some kv.2 else recGet r k

/-- `d[k] = v` on a Python dict: replace in place if the key exists, else
append at the end. -/
def dictSet : Record → String → Value → Record
  | [], k, v => [(k, v)]
  | kv :: r, k, v => if kv.1 == k then (kv.1, v) :: r else kv :: dictSet r k v

/-- `d.update(u)` on Python dicts: set every key of `u` in order. -/
def dictUpdate (r : Record) (u : List (String × Value)) : Record :=
  List.foldl (fun acc kv => dictSet acc kv.1 kv.2) r u

/-- Sanitization of one record: keys kept, values sanitized (the dict case
of `_sanitize_surrogates`). -/
def sanitizeRecord (r : Record) : Record :=
  List.map (fun kv : String × Value => (kv.1, sanitizeVal kv.2)) r

/-- Sanitization of the whole item list (the list case of
`_sanitize_surrogates`), which `JsonStore.write` applies to everything it
persists. -/
def sanitizeItems (items : List Record) : List Record :=
  List.map sanitizeRecord items

/-! ## `JsonStore.patch_items`

The store state is modelled as the parsed contents of the JSON file; `read`
returns it and `write items` replaces it by `sanitizeItems items`. -/

/-- Does record `r` hold string `k` in its key field?  (`patches` keys are
Python strings, so `key_to_idx.get(key_value)` matches exactly the records
whose key-field value equals that string.) -/
def keyMatches (kf : String) (k : PyStr) (r : Record) : Bool :=
  match recGet r kf with
  | some (.str s) => s == k
  | _ => false

/-- `key_to_idx = {p.get(key_field): i for i, p in enumerate(posts)}` maps
each key value to the LAST index holding it; `key_to_idx.get(k)` is that
index, or `None`. -/
def lastIdxWithKey (kf : String) (posts : List Record) (k : PyStr) : Option Nat :=
  (List.filter (fun i => keyMatches kf k (posts.getD i [])) (List.range posts.length)).getLast?

/-- The body of the `for key_value, updates in patches.items()` loop: look
the key up in the index built from the ORIGINAL posts (the code builds
`key_to_idx` once, before any update), apply `posts[idx].update(updates)`,
and count. -/
def patchStep (kf : String) (posts0 : List Record) (acc : List Record × Nat)
    (kp : PyStr × List (String × Value)) : List Record × Nat :=
  match lastIdxWithKey kf posts0 kp.1 with
  | some i => (acc.1.set i (dictUpdate (acc.1.getD i []) kp.2), acc.2 + 1)
  | none => acc

/-- `JsonStore.patch_items`: returns the new store state and the count of
patched items.  An empty patch dict returns immediately without writing. -/
def patchItems (kf : String) (posts : List Record)
    (patches : List (PyStr × List (String × Value))) : List Record × Nat :=
  if patches.isEmpty then (posts, 0)
  else
    let r := List.foldl (patchStep kf posts) (posts, 0) patches
    (sanitizeItems r.1, r.2)

/-! ## `JsonStore.append` -/

/-- `existing_keys[key] = i`: Python dict upsert keyed by JSON values. -/
def keysInsert : List (Value × Nat) → Value → Nat → List (Value × Nat)
  | [], k, i => [(k, i)]
  | e :: m, k, i => if beqV e.1 k then (e.1, i) :: m else e :: keysInsert m k i

/-- `existing_keys.get(key)` / `key in existing_keys`. -/
def keysLookup : List (Value × Nat) → Value → Option Nat
  | [], _ => none
  | e :: m, k => if beqV e.1 k then some e.2 else keysLookup m k

/-- The initial `existing_keys` map: for each existing item in order, its
truthy key value maps to its index (falsy or missing keys are skipped). -/
def initKeys (kf : String) (existing : List Record) : List (Value × Nat) :=
  List.foldl (fun m (p : Nat × Record) =>
    match recGet p.2 kf with
    | some k => if k.truthy then keysInsert m k p.1 else m
    | none => m) [] existing.enum

/-- Loop state of `JsonStore.append`: the (mutated) item list, the key
index, and the count of genuinely new items. -/
structure ApState where
  items : List Record
  keys : List (Value × Nat)
  added : Nat

/-- One iteration of the `for item in new_items` loop of
`JsonStore.append`: a truthy key that is already present is merged (when a
merge function is given) or silently skipped; anything else is appended and
counted, registering its key when truthy. -/
def appendStep (kf : String) (mergeFn : Option (Record → Record → Record))
    (st : ApState) (item : Record) : ApState :=
  let key := recGet item kf
  match key with
  | some k =>
    if k.truthy then
      match keysLookup st.keys k with
      | some idx =>
        match mergeFn with
        | some f => { st with items := st.items.set idx (f (st.items.getD idx []) item) }
        | none => st
      | none =>
        { items := st.items ++ [item], keys := keysInsert st.keys k st.items.length,
          added := st.added + 1 }
    else
      { st with items := st.items ++ [item], added := st.added + 1 }
  | none => { st with items := st.items ++ [item], added := st.added + 1 }

/-- `JsonStore.append`: fold the loop over the new items, then `write`
(which sanitizes) and return the count of added items. -/
def appendItems (kf : String) (existing : List Record) (newItems : List Record)
    (mergeFn : Option (Record → Record → Record)) : List Record × Nat :=
  let st := List.foldl (appendStep kf mergeFn) ⟨existing, initKeys kf existing, 0⟩ newItems
  (sanitizeItems st.items, st.added)

/-! ## Helper lemmas about records, sanitization, and the key index -/

theorem map_eq_self_of {α : Type} (f : α → α) (l : List α) (h : List.map f l = l) :
    ∀ x ∈ l, f x = x := by
  induction l with
  | nil => intro x hx; cases hx
  | cons a t ih =>
    rw [List.map_cons] at h
    injection h with h1 h2
    intro x hx
    rcases List.mem_cons.mp hx with rfl | hx
    · exact h1
    · exact ih h2 x hx

theorem recGet_sanitizeRecord (r : Record) (f : String) :
    recGet (sanitizeRecord r) f = (recGet r f).map sanitizeVal := by
  induction r with
  | nil => rfl
  | cons kv t ih =>
    show recGet ((kv.1, sanitizeVal kv.2) :: sanitizeRecord t) f = _
    by_cases h : (kv.1 == f) = true
    · simp [recGet, h]
    · simp only [recGet, if_neg h]
      exact ih

theorem recGet_dictSet_self (r : Record) (k : String) (v : Value) :
    recGet (dictSet r k v) k = some v := by
  induction r with
  | nil => simp [dictSet, recGet]
  | cons kv t ih =>
    rw [dictSet]
    by_cases h : (kv.1 == k) = true
    · simp [recGet, if_pos h, h]
    · rw [if_neg h, recGet, if_neg h]
      exact ih

theorem recGet_dictSet_ne (r : Record) (k : String) (v : Value) (f : String) (h : k ≠ f) :
    recGet (dictSet r k v) f = recGet r f := by
  induction r with
  | nil => simp [dictSet, recGet, h]
  | cons kv t ih =>
    rw [dictSet]
    by_cases hk : (kv.1 == k) = true
    · have hf : (kv.1 == f) = false := by
        have : kv.1 = k := by simpa using hk
        simp [this, h]
      rw [if_pos hk, recGet, recGet]
      show (if (kv.1 == f) = true then some v else recGet t f) = _
      rw [if_neg (by simp [hf]), if_neg (by simp [hf])]
    · rw [if_neg hk, recGet, recGet]
      by_cases hf : (kv.1 == f) = true
      · rw [if_pos hf, if_pos hf]
      · rw [if_neg hf, if_neg hf]
        exact ih

theorem recGet_dictUpdate_notin (r : Record) (u : List (String × Value)) (f : String)
    (h : ∀ kv ∈ u, kv.1 ≠ f) : recGet (dictUpdate r u) f = recGet r f := by
  induction u generalizing r with
  | nil => rfl
  | cons kv t ih =>
    rw [dictUpdate, List.foldl_cons]
    rw [show List.foldl (fun acc kv => dictSet acc kv.1 kv.2) (dictSet r kv.1 kv.2) t
        = dictUpdate (dictSet r kv.1 kv.2) t from rfl]
    rw [ih _ (fun x hx => h x (List.mem_cons_of_mem kv hx))]
    exact recGet_dictSet_ne r kv.1 kv.2 f (h kv (List.mem_cons_self kv t))

mutual
/-- Sanitization is idempotent on values. -/
theorem sanitizeVal_idem : (v : Value) → sanitizeVal (sanitizeVal v) = sanitizeVal v
  | .str s => by rw [sanitizeVal, sanitizeVal, sanitizePyStr_idem]
  | .int _ => rfl
  | .bool _ => rfl
  | .null => rfl
  | .list vs => by rw [sanitizeVal, sanitizeVal, sanitizeVL_idem vs]
  | .dict kvs => by rw [sanitizeVal, sanitizeVal, sanitizeKV_idem kvs]
theorem sanitizeVL_idem : (vs : List Value) → sanitizeVL (sanitizeVL vs) = sanitizeVL vs
  | [] => rfl
  | v :: vs => by rw [sanitizeVL, sanitizeVL, sanitizeVal_idem v, sanitizeVL_idem vs]
theorem sanitizeKV_idem :
    (kvs : List (String × Value)) → sanitizeKV (sanitizeKV kvs) = sanitizeKV kvs
  | [] => rfl
  | (k, v) :: kvs => by rw [sanitizeKV, sanitizeKV, sanitizeVal_idem v, sanitizeKV_idem kvs]
end

theorem sanitizeRecord_idem (r : Record) : sanitizeRecord (sanitizeRecord r) = sanitizeRecord r := by
  rw [sanitizeRecord, sanitizeRecord, List.map_map]
  apply List.map_congr_left
  intro kv _
  simp only [Function.comp_apply]
  rw [sanitizeVal_idem]

theorem sanitizeItems_idem (items : List Record) :
    sanitizeItems (sanitizeItems items) = sanitizeItems items := by
  rw [sanitizeItems, sanitizeItems, List.map_map]
  apply List.map_congr_left
  intro r _
  simp only [Function.comp_apply]
  exact sanitizeRecord_idem r

theorem sanitizeItems_length (items : List Record) :
    (sanitizeItems items).length = items.length := by
  rw [sanitizeItems, List.length_map]

theorem sanitizeItems_getD (items : List Record) (i : Nat) (h : i < items.length) :
    (sanitizeItems items).getD i [] = sanitizeRecord (items.getD i []) := by
  rw [sanitizeItems]
  rw [List.getD_eq_getElem?_getD, List.getD_eq_getElem?_getD]
  rw [List.getElem?_map]
  rw [List.getElem?_eq_getElem h]
  rfl

/-- A store state that is a fixed point of sanitization is fixed pointwise. -/
theorem sanitizeRecord_of_fixed (items : List Record) (h : sanitizeItems items = items)
    (i : Nat) (hi : i < items.length) : sanitizeRecord (items.getD i []) = items.getD i [] := by
  have hm : items.getD i [] ∈ items := by
    rw [List.getD_eq_getElem?_getD, List.getElem?_eq_getElem hi]
    exact List.getElem_mem hi
  exact map_eq_self_of sanitizeRecord items h _ hm

/-- In a sanitize-fixed record, every field value is sanitize-fixed. -/
theorem sanitizeVal_of_fixed_record (r : Record) (h : sanitizeRecord r = r) (f : String)
    (u : Value) (hu : recGet r f = some u) : sanitizeVal u = u := by
  have := recGet_sanitizeRecord r f
  rw [h, hu] at this
  injection this with h2
  exact h2.symm

/-! ### The last-index-with-key map of `patch_items` -/

/-- Does some record of `posts` carry key string `k`? -/
def hasKey (kf : String) (posts : List Record) (k : PyStr) : Bool :=
  List.any posts (keyMatches kf k)

theorem lastIdxWithKey_some (kf : String) (posts : List Record) (k : PyStr) (i : Nat)
    (h : lastIdxWithKey kf posts k = some i) :
    i < posts.length ∧ keyMatches kf k (posts.getD i []) = true := by
  rw [lastIdxWithKey] at h
  have hmem := List.mem_of_mem_getLast? h
  rw [List.mem_filter] at hmem
  exact ⟨List.mem_range.mp hmem.1, hmem.2⟩

theorem lastIdxWithKey_none (kf : String) (posts : List Record) (k : PyStr)
    (h : lastIdxWithKey kf posts k = none) :
    ∀ i, i < posts.length → keyMatches kf k (posts.getD i []) = false := by
  rw [lastIdxWithKey, List.getLast?_eq_none_iff, List.filter_eq_nil_iff] at h
  intro i hi
  have := h i (List.mem_range.mpr hi)
  simpa using this

theorem lastIdxWithKey_isSome_iff (kf : String) (posts : List Record) (k : PyStr) :
    (lastIdxWithKey kf posts k).isSome = true ↔
      ∃ i, i < posts.length ∧ keyMatches kf k (posts.getD i []) = true := by
  constructor
  · intro h
    rcases Option.isSome_iff_exists.mp h with ⟨i, hi⟩
    obtain ⟨h1, h2⟩ := lastIdxWithKey_some kf posts k i hi
    exact ⟨i, h1, h2⟩
  · intro ⟨i, hi, hk⟩
    rcases ho : lastIdxWithKey kf posts k with _ | j
    · have := lastIdxWithKey_none kf posts k ho i hi
      rw [this] at hk
      cases hk
    · rfl

theorem hasKey_iff (kf : String) (posts : List Record) (k : PyStr) :
    hasKey kf posts k = true ↔
      ∃ i, i < posts.length ∧ keyMatches kf k (posts.getD i []) = true := by
  rw [hasKey, List.any_eq_true]
  constructor
  · intro ⟨p, hp, hk⟩
    rcases List.getElem_of_mem hp with ⟨i, hi, rfl⟩
    refine ⟨i, hi, ?_⟩
    rwa [List.getD_eq_getElem?_getD, List.getElem?_eq_getElem hi]
  · intro ⟨i, hi, hk⟩
    refine ⟨posts.getD i [], ?_, hk⟩
    rw [List.getD_eq_getElem?_getD, List.getElem?_eq_getElem hi]
    exact List.getElem_mem hi

theorem lastIdxWithKey_isSome_eq_hasKey (kf : String) (posts : List Record) (k : PyStr) :
    (lastIdxWithKey kf posts k).isSome = hasKey kf posts k := by
  by_cases h : hasKey kf posts k = true
  · rw [h, (lastIdxWithKey_isSome_iff kf posts k).mpr ((hasKey_iff kf posts k).mp h)]
  · rw [Bool.not_eq_true] at h
    rw [h]
    rw [Bool.eq_false_iff]
    intro hs
    rw [← Bool.not_eq_true] at h
    exact h ((hasKey_iff kf posts k).mpr ((lastIdxWithKey_isSome_iff kf posts k).mp hs))

/-- Distinct patch keys always target distinct records: the record at a
targeted index carries exactly the one key string that targeted it. -/
theorem lastIdxWithKey_inj (kf : String) (posts : List Record) (k k' : PyStr) (i : Nat)
    (h1 : lastIdxWithKey kf posts k = some i) (h2 : lastIdxWithKey kf posts k' = some i) :
    k = k' := by
  obtain ⟨_, hm1⟩ := lastIdxWithKey_some kf posts k i h1
  obtain ⟨_, hm2⟩ := lastIdxWithKey_some kf posts k' i h2
  rw [keyMatches] at hm1 hm2
  rcases hg : recGet (posts.getD i []) kf with _ | u
  · rw [hg] at hm1
    cases hm1
  · rw [hg] at hm1 hm2
    cases u with
    | str s =>
      have e1 : s = k := by simpa using hm1
      have e2 : s = k' := by simpa using hm2
      rw [← e1, e2]
    | int n => cases hm1
    | bool b => cases hm1
    | null => cases hm1
    | list l => cases hm1
    | dict d => cases hm1

/-! ### Behaviour of the `patch_items` fold -/

theorem getD_set_self_rec (l : List Record) (i : Nat) (x : Record) (h : i < l.length) :
    (l.set i x).getD i [] = x := by
  simp [List.getD_eq_getElem?_getD, List.getElem?_set_self, h]

theorem getD_set_ne_rec (l : List Record) (j i : Nat) (x : Record) (h : j ≠ i) :
    (l.set j x).getD i [] = l.getD i [] := by
  simp [List.getD_eq_getElem?_getD, List.getElem?_set_ne, h]

theorem patchFold_length (kf : String) (posts0 : List Record)
    (patches : List (PyStr × List (String × Value))) :
    ∀ acc : List Record × Nat,
      (List.foldl (patchStep kf posts0) acc patches).1.length = acc.1.length := by
  induction patches with
  | nil => intro acc; rfl
  | cons p t ih =>
    intro acc
    rw [List.foldl_cons, ih]
    rw [patchStep]
    rcases h : lastIdxWithKey kf posts0 p.1 with _ | i
    · rfl
    · simp

theorem patchFold_count (kf : String) (posts0 : List Record)
    (patches : List (PyStr × List (String × Value))) :
    ∀ acc : List Record × Nat,
      (List.foldl (patchStep kf posts0) acc patches).2
        = acc.2 + (List.filter (fun kp => (lastIdxWithKey kf posts0 kp.1).isSome) patches).length := by
  induction patches with
  | nil => intro acc; simp
  | cons p t ih =>
    intro acc
    rw [List.foldl_cons, ih]
    rw [patchStep]
    rcases h : lastIdxWithKey kf posts0 p.1 with _ | i
    · rw [List.filter_cons_of_neg (by simp [h])]
    · rw [List.filter_cons_of_pos (by simp [h])]
      simp only [List.length_cons]
      omega

theorem patchFold_untouched (kf : String) (posts0 : List Record)
    (patches : List (PyStr × List (String × Value))) (i : Nat)
    (h : ∀ kp ∈ patches, lastIdxWithKey kf posts0 kp.1 ≠ some i) :
    ∀ acc : List Record × Nat,
      (List.foldl (patchStep kf posts0) acc patches).1.getD i [] = acc.1.getD i [] := by
  induction patches with
  | nil => intro acc; rfl
  | cons p t ih =>
    intro acc
    rw [List.foldl_cons]
    rw [ih (fun kp hkp => h kp (List.mem_cons_of_mem p hkp))]
    rw [patchStep]
    rcases hp : lastIdxWithKey kf posts0 p.1 with _ | j
    · rfl
    · have hji : j ≠ i := by
        intro he
        exact h p (List.mem_cons_self p t) (by rw [hp, he])
      simp only
      exact getD_set_ne_rec acc.1 j i _ hji

/-- C5 (the claim as stated): unknown patch keys are ignored and uncounted;
every record whose key is not in the patch dict, and every field of a
patched record not named in its patch, is unchanged up to the write-time
string sanitization (an empty patch dict short-circuits without writing,
leaving the store bit-for-bit unchanged). -/
theorem C5_patch_items_frame (kf : String) (posts : List Record)
    (patches : List (PyStr × List (String × Value)))
    (hnd : (List.map Prod.fst patches).Nodup) :
    ((patches = [] → patchItems kf posts patches = (posts, 0))
      ∧ (patchItems kf posts patches).2
          = (List.filter (fun kp => hasKey kf posts kp.1) patches).length
      ∧ (patchItems kf posts patches).1.length = posts.length)
    ∧ (∀ i, i < posts.length →
        (∀ kp ∈ patches, keyMatches kf kp.1 (posts.getD i []) = false) →
        patches ≠ [] →
        (patchItems kf posts patches).1.getD i [] = sanitizeRecord (posts.getD i []))
    ∧ (∀ kp ∈ patches, ∀ i, lastIdxWithKey kf posts kp.1 = some i →
        ∀ f, (∀ fv ∈ kp.2, fv.1 ≠ f) →
        recGet ((patchItems kf posts patches).1.getD i []) f
          = (recGet (posts.getD i []) f).map sanitizeVal) := by
  by_cases hemp : patches.isEmpty = true
  · have hp : patches = [] := List.isEmpty_iff.mp hemp
    subst hp
    refine ⟨⟨fun _ => by rw [patchItems]; rfl, by rw [patchItems]; rfl, by rw [patchItems]; rfl⟩,
      ?_, ?_⟩
    · intro i _ _ hne
      exact absurd rfl hne
    · intro kp hkp
      cases hkp
  · have hpi : patchItems kf posts patches
        = (sanitizeItems (List.foldl (patchStep kf posts) (posts, 0) patches).1,
           (List.foldl (patchStep kf posts) (posts, 0) patches).2) := by
      rw [patchItems, if_neg hemp]
    refine ⟨⟨fun hp => absurd hp (by simpa [List.isEmpty_iff] using hemp), ?_, ?_⟩, ?_, ?_⟩
    · rw [hpi]
      show (List.foldl (patchStep kf posts) (posts, 0) patches).2 = _
      rw [patchFold_count kf posts patches (posts, 0)]
      rw [List.filter_congr (fun kp _ => lastIdxWithKey_isSome_eq_hasKey kf posts kp.1)]
      omega
    · rw [hpi]
      show (sanitizeItems _).length = _
      rw [sanitizeItems_length, patchFold_length]
    · intro i hi hkm _
      rw [hpi]
      show (sanitizeItems _).getD i [] = _
      have huntouched : ∀ kp ∈ patches, lastIdxWithKey kf posts kp.1 ≠ some i := by
        intro kp hkp he
        have := (lastIdxWithKey_some kf posts kp.1 i he).2
        rw [hkm kp hkp] at this
        cases this
      rw [sanitizeItems_getD _ i (by rw [patchFold_length]; exact hi)]
      rw [patchFold_untouched kf posts patches i huntouched (posts, 0)]
    · intro kp hkp i hidx f hf
      rw [hpi]
      show recGet ((sanitizeItems _).getD i []) f = _
      obtain ⟨hi, _⟩ := lastIdxWithKey_some kf posts kp.1 i hidx
      obtain ⟨l1, l2, rfl⟩ := List.mem_iff_append.mp hkp
      have hnd' := hnd
      rw [List.map_append, List.map_cons] at hnd'
      have hk0l1 : kp.1 ∉ List.map Prod.fst l1 := by
        rcases List.nodup_append.mp hnd' with ⟨_, _, hdisj⟩
        intro hmem
        exact hdisj hmem (List.mem_cons_self _ _)
      have hk0l2 : kp.1 ∉ List.map Prod.fst l2 := by
        rcases List.nodup_append.mp hnd' with ⟨_, hcons, _⟩
        exact (List.nodup_cons.mp hcons).1
      have huntouched1 : ∀ kp' ∈ l1, lastIdxWithKey kf posts kp'.1 ≠ some i := by
        intro kp' hkp' he
        have := lastIdxWithKey_inj kf posts kp'.1 kp.1 i he hidx
        exact hk0l1 (this ▸ List.mem_map_of_mem Prod.fst hkp')
      have huntouched2 : ∀ kp' ∈ l2, lastIdxWithKey kf posts kp'.1 ≠ some i := by
        intro kp' hkp' he
        have := lastIdxWithKey_inj kf posts kp'.1 kp.1 i he hidx
        exact hk0l2 (this ▸ List.mem_map_of_mem Prod.fst hkp')
      rw [List.foldl_append, List.foldl_cons]
      set A1 := List.foldl (patchStep kf posts) (posts, 0) l1 with hA1
      have hA1i : A1.1.getD i [] = posts.getD i [] := patchFold_untouched kf posts l1 i huntouched1 _
      have hA1len : A1.1.length = posts.length := patchFold_length kf posts l1 _
      have hstep : (patchStep kf posts A1 kp).1.getD i [] = dictUpdate (posts.getD i []) kp.2 := by
        rw [patchStep, hidx]
        simp only
        rw [getD_set_self_rec _ i _ (by rw [hA1len]; exact hi), hA1i]
      have hlen2 : (patchStep kf posts A1 kp).1.length = posts.length := by
        rw [patchStep, hidx]
        simp only [List.length_set]
        exact hA1len
      rw [sanitizeItems_getD _ i (by rw [patchFold_length, hlen2]; exact hi)]
      rw [patchFold_untouched kf posts l2 i huntouched2 (patchStep kf posts A1 kp)]
      rw [hstep]
      rw [recGet_sanitizeRecord, recGet_dictUpdate_notin _ _ _ hf]

/-- Witness for C5 at a concrete store and patch set: one matching key
(counted), one unknown key (ignored), and an untouched field of the patched
record surviving. -/
theorem C5_patch_items_frame_witness :
    (patchItems "id" [[("id", Value.str [65]), ("a", Value.int 1)]]
        [([65], [("b", Value.int 2)]), ([66], [("c", Value.int 3)])]).2
      = (List.filter (fun kp => hasKey "id" [[("id", Value.str [65]), ("a", Value.int 1)]] kp.1)
          [([65], [("b", Value.int 2)]), ([66], [("c", Value.int 3)])]).length
    ∧ recGet ((patchItems "id" [[("id", Value.str [65]), ("a", Value.int 1)]]
        [([65], [("b", Value.int 2)]), ([66], [("c", Value.int 3)])]).1.getD 0 []) "a"
      = (recGet ([[("id", Value.str [65]), ("a", Value.int 1)]].getD 0 []) "a").map sanitizeVal := by
  have h := C5_patch_items_frame "id" [[("id", Value.str [65]), ("a", Value.int 1)]]
    [([65], [("b", Value.int 2)]), ([66], [("c", Value.int 3)])] (by decide)
  exact ⟨h.1.2.1, h.2.2 ([65], [("b", Value.int 2)]) (List.mem_cons_self _ _) 0 rfl "a"
    (by decide)⟩

/-! ### Composition of single-field patches (C1) -/

theorem keyMatches_recGet_congr (kf : String) (k' : PyStr) (r r' : Record)
    (h : recGet r' kf = recGet r kf) : keyMatches kf k' r' = keyMatches kf k' r := by
  rw [keyMatches, keyMatches, h]

theorem lastIdxWithKey_congr (kf : String) (posts posts' : List Record)
    (hlen : posts'.length = posts.length)
    (h : ∀ j, j < posts.length → ∀ k', keyMatches kf k' (posts'.getD j [])
        = keyMatches kf k' (posts.getD j [])) :
    ∀ k', lastIdxWithKey kf posts' k' = lastIdxWithKey kf posts' k'
      ∧ lastIdxWithKey kf posts' k' = lastIdxWithKey kf posts k' := by
  intro k'
  refine ⟨rfl, ?_⟩
  rw [lastIdxWithKey, lastIdxWithKey, hlen]
  congr 1
  apply List.filter_congr
  intro j hj
  exact h j (List.mem_range.mp hj) k'

theorem patchItems_single_shape (kf f : String) (v : Value) (s : List Record) (k : PyStr)
    (i : Nat) (hidx : lastIdxWithKey kf s k = some i) :
    (patchItems kf s [(k, [(f, v)])]).1
      = sanitizeItems (s.set i (dictSet (s.getD i []) f v)) := by
  rw [patchItems, if_neg (by simp)]
  show sanitizeItems (patchStep kf s (s, 0) (k, [(f, v)])).1 = _
  rw [patchStep, hidx]
  rfl

/-- Full effect of `patch_items({k: {f: v}})` on a sanitize-fixed store: the
targeted record gets field `f` (sanitized), every other record is unchanged,
the key index is undisturbed when `f` is not the key field, and the result
is again sanitize-fixed. -/
theorem patch_single_effect (kf f : String) (v : Value) (s : List Record) (k : PyStr)
    (i : Nat) (hsan : sanitizeItems s = s) (hidx : lastIdxWithKey kf s k = some i)
    (hfk : f ≠ kf) :
    ((patchItems kf s [(k, [(f, v)])]).1.length = s.length
      ∧ sanitizeItems (patchItems kf s [(k, [(f, v)])]).1 = (patchItems kf s [(k, [(f, v)])]).1)
    ∧ (patchItems kf s [(k, [(f, v)])]).1.getD i []
        = sanitizeRecord (dictSet (s.getD i []) f v)
    ∧ (∀ j, j ≠ i → j < s.length →
        (patchItems kf s [(k, [(f, v)])]).1.getD j [] = s.getD j [])
    ∧ (∀ k', lastIdxWithKey kf (patchItems kf s [(k, [(f, v)])]).1 k'
        = lastIdxWithKey kf s k') := by
  have hi : i < s.length := (lastIdxWithKey_some kf s k i hidx).1
  have hshape := patchItems_single_shape kf f v s k i hidx
  have hlen : (patchItems kf s [(k, [(f, v)])]).1.length = s.length := by
    rw [hshape, sanitizeItems_length, List.length_set]
  have hgetI : (patchItems kf s [(k, [(f, v)])]).1.getD i []
      = sanitizeRecord (dictSet (s.getD i []) f v) := by
    rw [hshape, sanitizeItems_getD _ i (by rw [List.length_set]; exact hi)]
    rw [getD_set_self_rec _ i _ hi]
  have hgetJ : ∀ j, j ≠ i → j < s.length →
      (patchItems kf s [(k, [(f, v)])]).1.getD j [] = s.getD j [] := by
    intro j hji hj
    rw [hshape, sanitizeItems_getD _ j (by rw [List.length_set]; exact hj)]
    rw [getD_set_ne_rec _ i j _ (fun he => hji he.symm)]
    exact sanitizeRecord_of_fixed s hsan j hj
  refine ⟨⟨hlen, by rw [hshape]; exact sanitizeItems_idem _⟩, hgetI, hgetJ, ?_⟩
  intro k'
  have hKM : ∀ j, j < s.length → ∀ k'',
      keyMatches kf k'' ((patchItems kf s [(k, [(f, v)])]).1.getD j [])
        = keyMatches kf k'' (s.getD j []) := by
    intro j hj k''
    by_cases hji : j = i
    · subst hji
      apply keyMatches_recGet_congr
      rw [hgetI, recGet_sanitizeRecord, recGet_dictSet_ne _ _ _ _ hfk]
      rcases hu : recGet (s.getD j []) kf with _ | u
      · rfl
      · rw [Option.map_some']
        have hfix : sanitizeVal u = u :=
          sanitizeVal_of_fixed_record _ (sanitizeRecord_of_fixed s hsan j hj) kf u hu
        rw [hfix]
    · apply keyMatches_recGet_congr
      rw [hgetJ j hji hj]
  exact ((lastIdxWithKey_congr kf s _ hlen hKM) k').2

/-- Effect of two single-field patches in sequence on the targeted record,
for distinct non-key fields. -/
theorem patch_two_effect (kf f g : String) (v w : Value) (s : List Record) (k : PyStr)
    (i : Nat) (hsan : sanitizeItems s = s) (hidx : lastIdxWithKey kf s k = some i)
    (hfg : f ≠ g) (hfk : f ≠ kf) (hgk : g ≠ kf) :
    lastIdxWithKey kf
        (patchItems kf (patchItems kf s [(k, [(f, v)])]).1 [(k, [(g, w)])]).1 k = some i
    ∧ recGet ((patchItems kf (patchItems kf s [(k, [(f, v)])]).1 [(k, [(g, w)])]).1.getD i []) f
        = some (sanitizeVal v)
    ∧ recGet ((patchItems kf (patchItems kf s [(k, [(f, v)])]).1 [(k, [(g, w)])]).1.getD i []) g
        = some (sanitizeVal w) := by
  obtain ⟨⟨hlen1, hsan1⟩, hgetI1, _, hkeys1⟩ := patch_single_effect kf f v s k i hsan hidx hfk
  have hidx1 : lastIdxWithKey kf (patchItems kf s [(k, [(f, v)])]).1 k = some i := by
    rw [hkeys1 k, hidx]
  obtain ⟨⟨_, _⟩, hgetI2, _, hkeys2⟩ :=
    patch_single_effect kf g w (patchItems kf s [(k, [(f, v)])]).1 k i hsan1 hidx1 hgk
  refine ⟨by rw [hkeys2 k, hidx1], ?_, ?_⟩
  · rw [hgetI2, recGet_sanitizeRecord, recGet_dictSet_ne _ _ _ _ (Ne.symm hfg)]
    rw [hgetI1, recGet_sanitizeRecord, recGet_dictSet_self]
    rw [Option.map_some', Option.map_some', sanitizeVal_idem]
  · rw [hgetI2, recGet_sanitizeRecord, recGet_dictSet_self, Option.map_some']

/-- C1 (amended): on a sanitize-fixed store (which every store state
written by `JsonStore` is), two single-field patches of the same record `k`
on distinct fields `f ≠ g` that are both different from the key field
compose in either order: afterwards the record with key `k` is still at its
index and holds both `f = sanitize(v)` and `g = sanitize(w)` — neither
patch is lost.  (For values without lone surrogates, `sanitize(v) = v`.) -/
theorem C1_patch_items_disjoint_compose (kf f g : String) (v w : Value) (s : List Record)
    (k : PyStr) (i : Nat) (hsan : sanitizeItems s = s)
    (hidx : lastIdxWithKey kf s k = some i)
    (hfg : f ≠ g) (hfk : f ≠ kf) (hgk : g ≠ kf) :
    (lastIdxWithKey kf
        (patchItems kf (patchItems kf s [(k, [(f, v)])]).1 [(k, [(g, w)])]).1 k = some i
      ∧ recGet ((patchItems kf (patchItems kf s [(k, [(f, v)])]).1
          [(k, [(g, w)])]).1.getD i []) f = some (sanitizeVal v)
      ∧ recGet ((patchItems kf (patchItems kf s [(k, [(f, v)])]).1
          [(k, [(g, w)])]).1.getD i []) g = some (sanitizeVal w))
    ∧ (lastIdxWithKey kf
        (patchItems kf (patchItems kf s [(k, [(g, w)])]).1 [(k, [(f, v)])]).1 k = some i
      ∧ recGet ((patchItems kf (patchItems kf s [(k, [(g, w)])]).1
          [(k, [(f, v)])]).1.getD i []) f = some (sanitizeVal v)
      ∧ recGet ((patchItems kf (patchItems kf s [(k, [(g, w)])]).1
          [(k, [(f, v)])]).1.getD i []) g = some (sanitizeVal w)) := by
  refine ⟨patch_two_effect kf f g v w s k i hsan hidx hfg hfk hgk, ?_⟩
  obtain ⟨h1, h2, h3⟩ := patch_two_effect kf g f w v s k i hsan hidx (Ne.symm hfg) hgk hfk
  exact ⟨h1, h3, h2⟩

/-- Witness for the amended C1 at a concrete store: record `"k"` patched
with `a := 1` and `b := 2` in both orders keeps both fields. -/
theorem C1_patch_items_disjoint_compose_witness :
    recGet ((patchItems "id" (patchItems "id" [[("id", Value.str [107])]]
        [([107], [("a", Value.int 1)])]).1 [([107], [("b", Value.int 2)])]).1.getD 0 []) "a"
      = some (sanitizeVal (Value.int 1))
    ∧ recGet ((patchItems "id" (patchItems "id" [[("id", Value.str [107])]]
        [([107], [("b", Value.int 2)])]).1 [([107], [("a", Value.int 1)])]).1.getD 0 []) "b"
      = some (sanitizeVal (Value.int 2)) := by
  have h := C1_patch_items_disjoint_compose "id" "a" "b" (Value.int 1) (Value.int 2)
    [[("id", Value.str [107])]] [107] 0 rfl rfl (by decide) (by decide) (by decide)
  exact ⟨h.1.2.1, h.2.2.2⟩

/-- Counterexample to C1 as stated: the claim quantifies over ALL pairs of
distinct fields, including the key field itself.  Patching `f = "id"` first
renames the record's key, so the second patch `{k: {"t": w}}` finds no
record with key `k` (it patches 0 records) and is lost: the final store is
`[{"id": "x"}]`, with no field `"t"` anywhere. -/
theorem C1_counterexample :
    (patchItems "id"
        (patchItems "id" [[("id", Value.str [107])]] [([107], [("id", Value.str [120])])]).1
        [([107], [("t", Value.str [121])])])
      = ([[("id", Value.str [120])]], 0)
    ∧ recGet ([[("id", Value.str [120])]].getD 0 []) "t" = none := ⟨rfl, rfl⟩

/-! ### The key index of `append` -/

theorem keysInsert_keys (m : List (Value × Nat)) (k : Value) (i : Nat) :
    ∀ e ∈ keysInsert m k i, e.1 ∈ List.map Prod.fst m ∨ e.1 = k := by
  induction m with
  | nil =>
    intro e he
    rcases List.mem_cons.mp he with rfl | he
    · exact Or.inr rfl
    · cases he
  | cons a t ih =>
    intro e he
    rw [keysInsert] at he
    by_cases hb : beqV a.1 k = true
    · rw [if_pos hb] at he
      rcases List.mem_cons.mp he with rfl | he
      · exact Or.inl (List.mem_cons_self _ _)
      · exact Or.inl (List.mem_cons_of_mem _ (List.mem_map_of_mem Prod.fst he))
    · rw [if_neg hb] at he
      rcases List.mem_cons.mp he with rfl | he
      · exact Or.inl (List.mem_cons_self _ _)
      · rcases ih e he with h | h
        · exact Or.inl (List.mem_cons_of_mem _ h)
        · exact Or.inr h

theorem keysLookup_mem (m : List (Value × Nat)) (v : Value) (j : Nat)
    (h : keysLookup m v = some j) : ∃ e ∈ m, beqV e.1 v = true := by
  induction m with
  | nil => cases h
  | cons a t ih =>
    rw [keysLookup] at h
    by_cases hb : beqV a.1 v = true
    · exact ⟨a, List.mem_cons_self _ _, hb⟩
    · rw [if_neg hb] at h
      rcases ih h with ⟨e, he, hbe⟩
      exact ⟨e, List.mem_cons_of_mem a he, hbe⟩

/-- Every key in the `existing_keys` map of `append` is the key-field value
of some existing record. -/
theorem initKeys_mem (kf : String) (s : List Record) :
    ∀ e ∈ initKeys kf s, ∃ p ∈ s, recGet p kf = some e.1 := by
  have main : ∀ (l : List (Nat × Record)) (m : List (Value × Nat)),
      ∀ e ∈ List.foldl (fun m (p : Nat × Record) =>
          match recGet p.2 kf with
          | some k => if k.truthy then keysInsert m k p.1 else m
          | none => m) m l,
        e.1 ∈ List.map Prod.fst m ∨ ∃ ip ∈ l, recGet ip.2 kf = some e.1 := by
    intro l
    induction l with
    | nil => intro m e he; exact Or.inl (List.mem_map_of_mem Prod.fst he)
    | cons ip t ih =>
      intro m e he
      rw [List.foldl_cons] at he
      rcases ih _ e he with h | ⟨ip', hip', hr⟩
      · rcases hg : recGet ip.2 kf with _ | k
        · simp only [hg] at h
          exact Or.inl h
        · simp only [hg] at h
          by_cases ht : k.truthy = true
          · rw [if_pos ht] at h
            rcases List.mem_map.mp h with ⟨e', he', heq⟩
            rcases keysInsert_keys m k ip.1 e' he' with h2 | h2
            · exact Or.inl (heq ▸ h2)
            · exact Or.inr ⟨ip, List.mem_cons_self _ _, by rw [hg, ← heq, h2]⟩
          · rw [if_neg ht] at h
            exact Or.inl h
      · exact Or.inr ⟨ip', List.mem_cons_of_mem ip hip', hr⟩
  intro e he
  rcases main s.enum [] e he with h | ⟨ip, hip, hr⟩
  · cases h
  · exact ⟨ip.2, List.snd_mem_of_mem_enum hip, hr⟩

theorem keysLookup_insert_str_self (m : List (Value × Nat)) (k : PyStr) (i : Nat) :
    (keysLookup (keysInsert m (.str k) i) (.str k)).isSome = true := by
  induction m with
  | nil => simp [keysInsert, keysLookup, beqV]
  | cons a t ih =>
    rw [keysInsert]
    by_cases hb : beqV a.1 (.str k) = true
    · rw [if_pos hb, keysLookup]
      rw [if_pos hb]
      rfl
    · rw [if_neg hb, keysLookup, if_neg hb]
      exact ih

theorem keysLookup_insert_preserve (m : List (Value × Nat)) (v : Value) (i : Nat) (k : PyStr)
    (h : (keysLookup m (.str k)).isSome = true) :
    (keysLookup (keysInsert m v i) (.str k)).isSome = true := by
  induction m with
  | nil => cases h
  | cons a t ih =>
    rw [keysInsert]
    by_cases hb : beqV a.1 v = true
    · rw [if_pos hb, keysLookup]
      rw [keysLookup] at h
      by_cases hk : beqV a.1 (.str k) = true
      · rw [if_pos hk]
        rfl
      · rw [if_neg hk]
        rw [if_neg hk] at h
        exact h
    · rw [if_neg hb, keysLookup]
      rw [keysLookup] at h
      by_cases hk : beqV a.1 (.str k) = true
      · rw [if_pos hk]
        rfl
      · rw [if_neg hk]
        rw [if_neg hk] at h
        exact ih h

theorem truthy_str_of_ne_nil (k : PyStr) (h : k ≠ []) : Value.truthy (.str k) = true := by
  cases k with
  | nil => exact absurd rfl h
  | cons a t => rfl

/-- If some record of `s` holds the truthy key string `k`, the
`existing_keys` map of `append` knows it. -/
theorem initKeys_lookup_isSome (kf : String) (s : List Record) (k : PyStr) (hk0 : k ≠ [])
    (p : Record) (hp : p ∈ s) (hpk : recGet p kf = some (.str k)) :
    (keysLookup (initKeys kf s) (.str k)).isSome = true := by
  have preserve : ∀ (l : List (Nat × Record)) (m : List (Value × Nat)),
      (keysLookup m (.str k)).isSome = true →
      (keysLookup (List.foldl (fun m (p : Nat × Record) =>
          match recGet p.2 kf with
          | some kk => if kk.truthy then keysInsert m kk p.1 else m
          | none => m) m l) (.str k)).isSome = true := by
    intro l
    induction l with
    | nil => intro m h; exact h
    | cons ip t ih =>
      intro m h
      rw [List.foldl_cons]
      apply ih
      rcases hg : recGet ip.2 kf with _ | kk
      · simp only [hg]
        exact h
      · simp only [hg]
        by_cases ht : kk.truthy = true
        · rw [if_pos ht]
          exact keysLookup_insert_preserve m kk ip.1 k h
        · rw [if_neg ht]
          exact h
  have main : ∀ (l : List (Nat × Record)) (m : List (Value × Nat)),
      (∃ ip ∈ l, recGet ip.2 kf = some (.str k)) →
      (keysLookup (List.foldl (fun m (p : Nat × Record) =>
          match recGet p.2 kf with
          | some kk => if kk.truthy then keysInsert m kk p.1 else m
          | none => m) m l) (.str k)).isSome = true := by
    intro l
    induction l with
    | nil => intro m ⟨ip, hip, _⟩; cases hip
    | cons ip t ih =>
      intro m ⟨ip', hip', hr⟩
      rcases List.mem_cons.mp hip' with rfl | hip'
      · rw [List.foldl_cons]
        apply preserve t
        simp only [hr, if_pos (truthy_str_of_ne_nil k hk0)]
        exact keysLookup_insert_str_self m k ip'.1
      · rw [List.foldl_cons]
        exact ih _ ⟨ip', hip', hr⟩
  rcases List.getElem_of_mem hp with ⟨i, hi, rfl⟩
  apply main s.enum []
  exact ⟨(i, s[i]), List.mem_enum_iff_getElem?.mpr (by simp [List.getElem?_eq_getElem hi]), hpk⟩

/-- C9 (code bug): `_sanitize_surrogates` promises the Unicode replacement
character U+FFFD, but `str.encode("utf-8", errors="replace")` substitutes
`"?"` (U+003F) — the `replace` handler uses `?` on encoding and U+FFFD only
on decoding.  Writing a record whose text is the lone surrogate U+D83C
stores `"?"`, not U+FFFD. -/
theorem C9_sanitize_lone_surrogate_writes_question_mark :
    sanitizeItems [[("text", Value.str [0xD83C])]] = [[("text", Value.str [0x3F])]]
    ∧ (0x3F : Nat) ≠ 0xFFFD := ⟨rfl, by decide⟩

/-- C10: an item whose key field is missing or falsy bypasses deduplication
entirely: one loop step appends it unconditionally and counts it, and a
whole `append([x])` call adds it (sanitized on write) and returns 1 — for
every store state and every merge function, which is therefore never
invoked for such items. -/
theorem C10_append_falsy_key_bypasses_dedup (kf : String)
    (mergeFn : Option (Record → Record → Record)) (x : Record)
    (hfalsy : ∀ k, recGet x kf = some k → k.truthy = false) :
    (∀ st : ApState, appendStep kf mergeFn st x
        = { st with items := st.items ++ [x], added := st.added + 1 })
    ∧ (∀ s : List Record, appendItems kf s [x] mergeFn = (sanitizeItems (s ++ [x]), 1)) := by
  have hstep : ∀ st : ApState, appendStep kf mergeFn st x
      = { st with items := st.items ++ [x], added := st.added + 1 } := by
    intro st
    rcases hg : recGet x kf with _ | k
    · simp only [appendStep, hg]
    · have ht := hfalsy k hg
      simp only [appendStep, hg]
      rw [if_neg (by simp [ht])]
  refine ⟨hstep, fun s => ?_⟩
  simp only [appendItems, List.foldl_cons, List.foldl_nil, hstep]

/-- Witness for C10: an item with an empty-string key is appended and
counted even though an identical record is already in the store and a merge
function is supplied. -/
theorem C10_append_falsy_key_bypasses_dedup_witness :
    appendItems "id" [[("id", Value.str [])]] [[("id", Value.str [])]]
        (some (fun a _ => a))
      = (sanitizeItems ([[("id", Value.str [])]] ++ [[("id", Value.str [])]]), 1) :=
  (C10_append_falsy_key_bypasses_dedup "id" (some (fun a _ => a)) [("id", Value.str [])]
    (by
      intro k h
      rw [show recGet [("id", Value.str [])] "id" = some (Value.str []) from rfl] at h
      injection h with h2
      rw [← h2]
      rfl)).2 [[("id", Value.str [])]]

/-- Counterexample to C4 as stated: the claim quantifies over EVERY store
state, but when a record with the key is already present the first
`append([x])` skips it and returns 0, not 1. -/
theorem C4_counterexample :
    (appendItems "id" [[("id", Value.str [97])]] [[("id", Value.str [97])]] none).2 = 0
    ∧ (0 : Nat) ≠ 1 := ⟨rfl, by decide⟩

/-- C4 (amended): on a sanitize-fixed store that does not yet contain key
`k`, with `k` a nonempty surrogate-free string, `append([x])` with no merge
function adds the item and returns 1, a second identical call silently
skips it and returns 0, and exactly one record with key `k` remains. -/
theorem C4_append_idempotent_amended (kf : String) (s : List Record) (k : PyStr) (x : Record)
    (hsan : sanitizeItems s = s) (hk0 : k ≠ []) (hkfix : sanitizePyStr k = k)
    (hx : recGet x kf = some (.str k))
    (hnotin : ∀ p ∈ s, recGet p kf ≠ some (.str k)) :
    (appendItems kf s [x] none).2 = 1
    ∧ (appendItems kf (appendItems kf s [x] none).1 [x] none).2 = 0
    ∧ (List.filter (keyMatches kf k)
        (appendItems kf (appendItems kf s [x] none).1 [x] none).1).length = 1 := by
  have hlookup1 : keysLookup (initKeys kf s) (.str k) = none := by
    rcases hl : keysLookup (initKeys kf s) (.str k) with _ | j
    · rfl
    · exfalso
      rcases keysLookup_mem _ _ _ hl with ⟨e, he, hbe⟩
      have he1 : e.1 = .str k := (beqV_str_iff e.1 k).mp hbe
      rcases initKeys_mem kf s e he with ⟨p, hp, hpk⟩
      exact hnotin p hp (by rw [hpk, he1])
  have hstep1 : appendStep kf none ⟨s, initKeys kf s, 0⟩ x
      = ⟨s ++ [x], keysInsert (initKeys kf s) (.str k) s.length, 1⟩ := by
    simp only [appendStep, hx]
    rw [if_pos (truthy_str_of_ne_nil k hk0), hlookup1]
  have happ1 : appendItems kf s [x] none = (sanitizeItems (s ++ [x]), 1) := by
    simp only [appendItems, List.foldl_cons, List.foldl_nil, hstep1]
  have hstore1 : (appendItems kf s [x] none).1 = s ++ [sanitizeRecord x] := by
    rw [happ1]
    show sanitizeItems (s ++ [x]) = _
    rw [sanitizeItems, List.map_append,
      show List.map sanitizeRecord s = sanitizeItems s from rfl, hsan]
    rfl
  have hxsan : recGet (sanitizeRecord x) kf = some (.str k) := by
    rw [recGet_sanitizeRecord, hx, Option.map_some']
    show some (Value.str (sanitizePyStr k)) = _
    rw [hkfix]
  have hlookup2 : (keysLookup (initKeys kf (s ++ [sanitizeRecord x])) (.str k)).isSome
      = true :=
    initKeys_lookup_isSome kf _ k hk0 (sanitizeRecord x)
      (List.mem_append_right s (List.mem_cons_self _ _)) hxsan
  have hstep2 : appendStep kf none
      ⟨s ++ [sanitizeRecord x], initKeys kf (s ++ [sanitizeRecord x]), 0⟩ x
      = ⟨s ++ [sanitizeRecord x], initKeys kf (s ++ [sanitizeRecord x]), 0⟩ := by
    simp only [appendStep, hx]
    rw [if_pos (truthy_str_of_ne_nil k hk0)]
    rcases hl : keysLookup (initKeys kf (s ++ [sanitizeRecord x])) (.str k) with _ | j
    · rw [hl] at hlookup2
      cases hlookup2
    · rfl
  have happ2 : appendItems kf (s ++ [sanitizeRecord x]) [x] none
      = (sanitizeItems (s ++ [sanitizeRecord x]), 0) := by
    simp only [appendItems, List.foldl_cons, List.foldl_nil, hstep2]
  have hstore2 : sanitizeItems (s ++ [sanitizeRecord x]) = s ++ [sanitizeRecord x] := by
    rw [sanitizeItems, List.map_append,
      show List.map sanitizeRecord s = sanitizeItems s from rfl, hsan]
    show s ++ [sanitizeRecord (sanitizeRecord x)] = _
    rw [sanitizeRecord_idem]
  have hfilters : List.filter (keyMatches kf k) s = [] := by
    rw [List.filter_eq_nil_iff]
    intro p hp hm
    rw [keyMatches] at hm
    rcases hg : recGet p kf with _ | u
    · rw [hg] at hm
      cases hm
    · rw [hg] at hm
      cases u with
      | str s' =>
        have hs' : s' = k := by simpa using hm
        exact hnotin p hp (by rw [hg, hs'])
      | int n => cases hm
      | bool b => cases hm
      | null => cases hm
      | list l => cases hm
      | dict d => cases hm
  have hmx : keyMatches kf k (sanitizeRecord x) = true := by
    rw [keyMatches, hxsan]
    simp
  refine ⟨by rw [happ1], ?_, ?_⟩
  · rw [hstore1, happ2]
  · rw [hstore1, happ2]
    show (List.filter (keyMatches kf k) (sanitizeItems (s ++ [sanitizeRecord x]))).length = 1
    rw [hstore2, List.filter_append, hfilters, List.filter_cons_of_pos hmx]
    rfl

/-- Witness for the amended C4: appending `{"id": "a"}` twice to an empty
store returns 1 then 0 and leaves one record keyed `"a"`. -/
theorem C4_append_idempotent_amended_witness :
    (appendItems "id" [] [[("id", Value.str [97])]] none).2 = 1
    ∧ (appendItems "id" (appendItems "id" [] [[("id", Value.str [97])]] none).1
        [[("id", Value.str [97])]] none).2 = 0
    ∧ (List.filter (keyMatches "id" [97])
        (appendItems "id" (appendItems "id" [] [[("id", Value.str [97])]] none).1
          [[("id", Value.str [97])]] none).1).length = 1 :=
  C4_append_idempotent_amended "id" [] [97] [("id", Value.str [97])] rfl (by decide) rfl rfl
    (by intro p hp; cases hp)

/-! ## The browser enricher: fetch results, the shortcode codec, and the
GraphQL→REST transport fallback -/

/-- One media entry of a normalized fetch result (`_extract_media_from_item`
output, with `local_path` possibly added by `download_post_media`).  Fields
model `m.get(..., default)` of the Python dicts. -/
structure MediaItem where
  type : String := "image"
  url : String := ""
  w : Int := 0
  h : Int := 0
  local_path : String := ""
  deriving DecidableEq

/-- A normalized fetch result (the dicts built by `_item_to_result`,
`fetch_post_rest` and `_fetch_post_graphql`).  Absent dict keys are
modelled by the defaults. -/
structure FetchResult where
  shortcode : String := ""
  status : String := ""
  message : Option String := none
  code : Option Nat := none
  pk : String := ""
  username : String := ""
  full_name : String := ""
  caption : String := ""
  like_count : Int := 0
  comment_count : Int := 0
  taken_at : Int := 0
  media_type : Nat := 0
  media : List MediaItem := []
  deriving DecidableEq

instance : Inhabited FetchResult := ⟨{}⟩

/-- `_IG_ALPHABET`. -/
def IG_ALPHABET : List Char :=
  "ABCDEFGHIJKLMNOPQRSTUVWXYZabcdefghijklmnopqrstuvwxyz0123456789-_".data

/-- Python `str.index`: position of the first occurrence, `ValueError`
(modelled as `none`) when absent. -/
def igIndex : List Char → Char → Option Nat
  | [], _ => none
  | a :: as, c => if a = c then some 0 else (igIndex as c).map (· + 1)

/-- `shortcode_to_pk`: base-64 accumulation `pk = pk * 64 + index(char)`
over the custom alphabet; the first invalid character raises (`none`). -/
def shortcodeToPk (s : String) : Option Nat :=
  List.foldl
    (fun acc c => acc.bind (fun pk => (igIndex IG_ALPHABET c).map (fun i => pk * 64 + i)))
    (some 0) s.data

/-- `fetch_post_rest`: the shortcode is converted first; on `ValueError`
the error result is returned before any request is made.  Everything after
the guard (URL building, the HTTP GET, response decoding) is abstracted as
an oracle from the numeric PK. -/
def fetchPostRest (restCall : Nat → FetchResult) (shortcode : String) : FetchResult :=
  match shortcodeToPk shortcode with
  | none => { shortcode := shortcode, status := "error", message := some "invalid shortcode" }
  | some pk => restCall pk

/-- The positional value of a character list under the codec (Horner form). -/
def codeSum : List Char → Nat
  | [] => 0
  | c :: l => (igIndex IG_ALPHABET c).getD 0 * 64 ^ l.length + codeSum l

theorem codeSum_eq_sum (l : List Char) :
    codeSum l = ∑ i ∈ Finset.range l.length,
      (igIndex IG_ALPHABET (l.getD i ' ')).getD 0 * 64 ^ (l.length - 1 - i) := by
  induction l with
  | nil => rfl
  | cons c t ih =>
    rw [codeSum, ih, List.length_cons, Finset.sum_range_succ']
    simp only [List.getD_cons_succ, List.getD_cons_zero]
    have he : ∀ i, i ∈ Finset.range t.length →
        (igIndex IG_ALPHABET (t.getD i ' ')).getD 0 * 64 ^ (t.length + 1 - 1 - (i + 1))
          = (igIndex IG_ALPHABET (t.getD i ' ')).getD 0 * 64 ^ (t.length - 1 - i) := by
      intro i _
      have hexp : t.length + 1 - 1 - (i + 1) = t.length - 1 - i := by omega
      rw [hexp]
    rw [Finset.sum_congr rfl he]
    have : t.length + 1 - 1 - 0 = t.length := by omega
    rw [this]
    omega

theorem shortcode_fold_none (l : List Char) :
    List.foldl
      (fun acc c => acc.bind (fun pk => (igIndex IG_ALPHABET c).map (fun i => pk * 64 + i)))
      none l = none := by
  induction l with
  | nil => rfl
  | cons c t ih => rw [List.foldl_cons]; exact ih

theorem shortcode_fold_some (l : List Char) (hv : ∀ c ∈ l, igIndex IG_ALPHABET c ≠ none) :
    ∀ a : Nat,
      List.foldl
        (fun acc c => acc.bind (fun pk => (igIndex IG_ALPHABET c).map (fun i => pk * 64 + i)))
        (some a) l = some (a * 64 ^ l.length + codeSum l) := by
  induction l with
  | nil => intro a; simp [codeSum]
  | cons c t ih =>
    intro a
    rw [List.foldl_cons]
    rcases hg : igIndex IG_ALPHABET c with _ | i
    · exact absurd hg (hv c (List.mem_cons_self c t))
    · rw [show ((some a).bind fun pk => Option.map (fun i => pk * 64 + i) (some i))
          = some (a * 64 + i) from rfl]
      rw [ih (fun c hc => hv c (List.mem_cons_of_mem _ hc)) (a * 64 + i)]
      rw [codeSum, hg]
      simp only [Option.getD_some]
      congr 1
      rw [List.length_cons, pow_succ]
      ring

theorem shortcode_fold_invalid (l : List Char) (hinv : ∃ c ∈ l, igIndex IG_ALPHABET c = none) :
    ∀ a : Nat,
      List.foldl
        (fun acc c => acc.bind (fun pk => (igIndex IG_ALPHABET c).map (fun i => pk * 64 + i)))
        (some a) l = none := by
  induction l with
  | nil => rcases hinv with ⟨c, hc, _⟩; cases hc
  | cons c t ih =>
    intro a
    rw [List.foldl_cons]
    rcases hg : igIndex IG_ALPHABET c with _ | i
    · rw [show ((some a).bind fun pk => Option.map (fun i => pk * 64 + i) (none : Option Nat))
          = (none : Option Nat) from rfl]
      exact shortcode_fold_none t
    · rcases hinv with ⟨c', hc', hg'⟩
      rcases List.mem_cons.mp hc' with rfl | hc'
      · rw [hg] at hg'
        cases hg'
      · rw [show ((some a).bind fun pk => Option.map (fun i => pk * 64 + i) (some i))
            = some (a * 64 + i) from rfl]
        exact ih ⟨c', hc', hg'⟩ (a * 64 + i)

/-- C6: the shortcode codec is the base-64 positional sum over the custom
alphabet (`A`↦0, `B`↦1, `_`↦63, `BA`↦64); any shortcode containing a
character outside the alphabet raises `ValueError`, which
`fetch_post_rest` surfaces as `{"status": "error", "message": "invalid
shortcode"}` without consulting the network at all (the result is the same
for every REST oracle — nothing is retried). -/
theorem C6_shortcode_codec (s : String)
    (hinv : ∃ c ∈ s.data, igIndex IG_ALPHABET c = none) :
    (shortcodeToPk "A" = some 0 ∧ shortcodeToPk "B" = some 1
      ∧ shortcodeToPk "_" = some 63 ∧ shortcodeToPk "BA" = some 64)
    ∧ (∀ t : String, (∀ c ∈ t.data, igIndex IG_ALPHABET c ≠ none) →
        shortcodeToPk t = some (∑ i ∈ Finset.range t.data.length,
          (igIndex IG_ALPHABET (t.data.getD i ' ')).getD 0 * 64 ^ (t.data.length - 1 - i)))
    ∧ shortcodeToPk s = none
    ∧ (∀ restCall : Nat → FetchResult,
        fetchPostRest restCall s
          = { shortcode := s, status := "error", message := some "invalid shortcode" }) := by
  have hnone : shortcodeToPk s = none := shortcode_fold_invalid s.data hinv 0
  refine ⟨⟨by decide, by decide, by decide, by decide⟩, ?_, hnone, ?_⟩
  · intro t hv
    rw [shortcodeToPk, shortcode_fold_some t.data hv 0, ← codeSum_eq_sum]
    simp
  · intro restCall
    rw [fetchPostRest, hnone]

/-- Witness for C6 at the invalid shortcode `"!"` (with a REST oracle that
would answer `ok`, showing the guard, not the network, produced the
error). -/
theorem C6_shortcode_codec_witness :
    shortcodeToPk "!" = none
    ∧ fetchPostRest (fun _ => { status := "ok" }) "!"
        = { shortcode := "!", status := "error", message := some "invalid shortcode" } := by
  have h := C6_shortcode_codec "!" ⟨'!', by decide, by decide⟩
  exact ⟨h.2.2.1, h.2.2.2 (fun _ => { status := "ok" })⟩

/-! ### The GraphQL→REST transport fallback (`fetch_post_by_shortcode`) -/

/-- One call with its two potential backend answers: what GraphQL would
return for this shortcode at this moment, and what REST would. -/
structure FetchCall where
  gql : FetchResult
  rest : FetchResult
  deriving DecidableEq

instance : Inhabited FetchCall := ⟨⟨{}, {}⟩⟩

/-- The checkpoint signal: `result["status"] == "error" and
result.get("message") == "invalid json"`. -/
def isInvalidJsonError (r : FetchResult) : Bool :=
  r.status == "error" && r.message == some "invalid json"

/-- One `fetch_post_by_shortcode` call: with the flag up, try GraphQL and
return its result unless it is the invalid-json error, in which case flip
the flag and return the REST result for the same shortcode; with the flag
down, go straight to REST.  Returns the result and the new flag. -/
def fetchStep (avail : Bool) (call : FetchCall) : FetchResult × Bool :=
  if avail then
    if ¬ (isInvalidJsonError call.gql = true) then (call.gql, true)
    else (call.rest, false)
  else (call.rest, false)

/-- A whole session: thread the module-level `_graphql_available` flag
through a sequence of calls. -/
def fetchTrace : Bool → List FetchCall → List (FetchResult × Bool)
  | _, [] => []
  | avail, c :: cs =>
      let r := fetchStep avail c
      r :: fetchTrace r.2 cs

theorem fetchTrace_flag_down (cs : List FetchCall) :
    fetchTrace false cs = List.map (fun c => (c.rest, false)) cs := by
  induction cs with
  | nil => rfl
  | cons c t ih =>
    rw [fetchTrace]
    show (fetchStep false c) :: fetchTrace (fetchStep false c).2 t = _
    rw [fetchStep, if_neg (by simp)]
    rw [List.map_cons]
    show ((c.rest, false) : FetchResult × Bool) :: fetchTrace false t = _
    rw [ih]

/-- C3: starting with the GraphQL-available flag up, every call before the
first invalid-json GraphQL answer is served by GraphQL with the flag kept
up; the first call whose GraphQL answer is the invalid-json error is
served by the REST answer for that same call and flips the flag; and every
later call skips GraphQL and is served by REST with the flag down. -/
theorem C3_graphql_checkpoint_fallback (l1 l2 : List FetchCall) (cj : FetchCall)
    (hbefore : ∀ c ∈ l1, isInvalidJsonError c.gql = false)
    (hat : isInvalidJsonError cj.gql = true) :
    (∀ c : FetchCall, isInvalidJsonError c.gql = false → fetchStep true c = (c.gql, true))
    ∧ (∀ c : FetchCall, isInvalidJsonError c.gql = true → fetchStep true c = (c.rest, false))
    ∧ (∀ c : FetchCall, fetchStep false c = (c.rest, false))
    ∧ fetchTrace true (l1 ++ cj :: l2)
        = List.map (fun c => (c.gql, true)) l1
          ++ ((cj.rest, false) :: List.map (fun c => (c.rest, false)) l2) := by
  have hstepOk : ∀ c : FetchCall, isInvalidJsonError c.gql = false →
      fetchStep true c = (c.gql, true) := by
    intro c hc
    rw [fetchStep, if_pos (by simp), if_pos (by simp [hc])]
  have hstepBad : ∀ c : FetchCall, isInvalidJsonError c.gql = true →
      fetchStep true c = (c.rest, false) := by
    intro c hc
    rw [fetchStep, if_pos (by simp), if_neg (by simp [hc])]
  have hstepDown : ∀ c : FetchCall, fetchStep false c = (c.rest, false) := by
    intro c
    rw [fetchStep, if_neg (by simp)]
  refine ⟨hstepOk, hstepBad, hstepDown, ?_⟩
  induction l1 with
  | nil =>
    rw [List.nil_append, fetchTrace]
    show (fetchStep true cj) :: fetchTrace (fetchStep true cj).2 l2 = _
    rw [hstepBad cj hat]
    rw [List.map_nil, List.nil_append]
    show ((cj.rest, false) : FetchResult × Bool) :: fetchTrace false l2 = _
    rw [fetchTrace_flag_down]
  | cons c t ih =>
    rw [List.cons_append, fetchTrace]
    show (fetchStep true c) :: fetchTrace (fetchStep true c).2 (t ++ cj :: l2) = _
    rw [hstepOk c (hbefore c (List.mem_cons_self c t))]
    rw [List.map_cons, List.cons_append]
    show ((c.gql, true) : FetchResult × Bool) :: fetchTrace true (t ++ cj :: l2) = _
    rw [ih (fun c hc => hbefore c (List.mem_cons_of_mem _ hc))]

/-- Witness for C3: a three-call session whose second GraphQL answer is the
checkpoint signal. -/
theorem C3_graphql_checkpoint_fallback_witness :
    fetchTrace true
        [⟨{ status := "ok", username := "u1" }, { status := "ok", username := "r1" }⟩,
         ⟨{ status := "error", message := some "invalid json" }, { status := "ok", username := "r2" }⟩,
         ⟨{ status := "ok", username := "u3" }, { status := "not_found" }⟩]
      = [({ status := "ok", username := "u1" }, true),
         ({ status := "ok", username := "r2" }, false),
         ({ status := "not_found" }, false)] := by
  have h := C3_graphql_checkpoint_fallback
    [⟨{ status := "ok", username := "u1" }, { status := "ok", username := "r1" }⟩]
    [⟨{ status := "ok", username := "u3" }, { status := "not_found" }⟩]
    ⟨{ status := "error", message := some "invalid json" }, { status := "ok", username := "r2" }⟩
    (by decide) (by decide)
  exact h.2.2.2

/-! ### `apply_results` (the enricher's patch builder) -/

/-- Conversion of a Lean-modelled Python string to raw code points. -/
def pstr (s : String) : PyStr := List.map Char.toNat s.data

/-- One entry of the `patch["media"]` list built by `apply_results`. -/
def mediaVal (m : MediaItem) : Value :=
  .dict [("url", .str (pstr m.url)), ("media_type", .str (pstr m.type)),
         ("local_path", .str (pstr m.local_path)), ("alt_text", .str (pstr "")),
         ("width", .int m.w), ("height", .int m.h)]

/-- The patch built for an `ok` result: the base dict literal followed by
the four conditional assignments, in source order.  `result.get("caption")
or "[No caption]"` substitutes the sentinel exactly when the caption is
empty (falsy). -/
def okPatch (iso : Int → String) (r : FetchResult) : List (String × Value) :=
  ("text", .str (pstr (if r.caption = "" then "[No caption]" else r.caption))) ::
  ("author", .dict [("username", .str (pstr r.username)),
                    ("display_name", .str (pstr r.full_name)),
                    ("profile_url",
                     .str (pstr ("https://www.instagram.com/" ++ r.username ++ "/")))]) ::
  ("source", .str (pstr "archive+api")) ::
  ((if r.media ≠ [] then [("media", Value.list (List.map mediaVal r.media))] else [])
  ++ ((if r.like_count ≠ 0 then [("like_count", Value.int r.like_count)] else [])
  ++ ((if r.comment_count ≠ 0 then [("reply_count", Value.int r.comment_count)] else [])
  ++ ((if r.taken_at ≠ 0 then [("created_at", Value.str (pstr (iso r.taken_at)))] else [])
  ++ (if r.pk ≠ "" then [("media_pk", Value.str (pstr r.pk))] else [])))))

/-- The patch built for a `not_found` result. -/
def notFoundPatch : List (String × Value) :=
  [("source", .str (pstr "archive:deleted")),
   ("text", .str (pstr "[Post no longer available]"))]

/-- Accumulator of the `for result in results` loop of `apply_results`. -/
structure ApplyAcc where
  patches : List (String × List (String × Value)) := []
  enriched : Nat := 0
  deleted : Nat := 0
  failed : Nat := 0

/-- `patches[sc] = patch` (Python dict assignment). -/
def patchesSet : List (String × List (String × Value)) → String → List (String × Value) →
    List (String × List (String × Value))
  | [], k, v => [(k, v)]
  | e :: m, k, v => if e.1 == k then (e.1, v) :: m else e :: patchesSet m k v

/-- `patches.get(sc)`. -/
def patchesGet : List (String × List (String × Value)) → String → Option (List (String × Value))
  | [], _ => none
  | e :: m, k => if e.1 == k then some e.2 else patchesGet m k

/-- The loop body of `apply_results`: `ok` results contribute their full
patch and count as enriched, `not_found` results contribute the deleted
patch, anything else only counts as failed. -/
def applyResultsStep (iso : Int → String) (acc : ApplyAcc) (r : FetchResult) : ApplyAcc :=
  if r.status = "ok" then
    { acc with patches := patchesSet acc.patches r.shortcode (okPatch iso r),
               enriched := acc.enriched + 1 }
  else if r.status = "not_found" then
    { acc with patches := patchesSet acc.patches r.shortcode notFoundPatch,
               deleted := acc.deleted + 1 }
  else { acc with failed := acc.failed + 1 }

/-- `apply_results` up to its `store.patch_items(patches)` call: the patch
dict and the three counters. -/
def applyResults (iso : Int → String) (results : List FetchResult) : ApplyAcc :=
  List.foldl (applyResultsStep iso) {} results

theorem patchesGet_set_self (m : List (String × List (String × Value))) (k : String)
    (v : List (String × Value)) : patchesGet (patchesSet m k v) k = some v := by
  induction m with
  | nil => simp [patchesSet, patchesGet]
  | cons e t ih =>
    rw [patchesSet]
    by_cases h : (e.1 == k) = true
    · rw [if_pos h, patchesGet, if_pos h]
    · rw [if_neg h, patchesGet, if_neg h]
      exact ih

theorem patchesGet_set_ne (m : List (String × List (String × Value))) (k k' : String)
    (v : List (String × Value)) (h : k ≠ k') :
    patchesGet (patchesSet m k v) k' = patchesGet m k' := by
  induction m with
  | nil => simp [patchesSet, patchesGet, h]
  | cons e t ih =>
    rw [patchesSet]
    by_cases hk : (e.1 == k) = true
    · have hk' : (e.1 == k') = false := by
        have : e.1 = k := by simpa using hk
        simp [this, h]
      rw [if_pos hk, patchesGet, patchesGet, hk']
      simp
    · rw [if_neg hk, patchesGet, patchesGet]
      by_cases hk' : (e.1 == k') = true
      · rw [if_pos hk', if_pos hk']
      · rw [if_neg hk', if_neg hk']
        exact ih

theorem patchesSet_length_new (m : List (String × List (String × Value))) (k : String)
    (v : List (String × Value)) (h : patchesGet m k = none) :
    (patchesSet m k v).length = m.length + 1 := by
  induction m with
  | nil => rfl
  | cons e t ih =>
    rw [patchesGet] at h
    by_cases hk : (e.1 == k) = true
    · rw [if_pos hk] at h
      cases h
    · rw [if_neg hk] at h
      rw [patchesSet, if_neg hk, List.length_cons, List.length_cons, ih h]

theorem recGet_append (l1 l2 : Record) (f : String) :
    recGet (l1 ++ l2) f = (recGet l1 f).or (recGet l2 f) := by
  induction l1 with
  | nil => simp [recGet]
  | cons kv t ih =>
    rw [List.cons_append, recGet, recGet]
    by_cases h : (kv.1 == f) = true
    · rw [if_pos h, if_pos h]
      rfl
    · rw [if_neg h, if_neg h]
      exact ih

theorem recGet_single_block (c : Prop) [Decidable c] (k : String) (v : Value) (f : String)
    (h : k ≠ f) : recGet (if c then [(k, v)] else []) f = none := by
  by_cases hc : c
  · rw [if_pos hc, recGet, if_neg (by simp [h])]
    rfl
  · rw [if_neg hc]
    rfl

theorem recGet_single_block_self (c : Prop) [Decidable c] (k : String) (v : Value) :
    recGet (if c then [(k, v)] else []) k = if c then some v else none := by
  by_cases hc : c
  · rw [if_pos hc, if_pos hc, recGet, if_pos (by simp)]
  · rw [if_neg hc, if_neg hc]
    rfl

theorem applyFold_get_untouched (iso : Int → String) (l : List FetchResult) (sc : String)
    (hsc : ∀ r ∈ l, r.shortcode ≠ sc) :
    ∀ acc, patchesGet (List.foldl (applyResultsStep iso) acc l).patches sc
      = patchesGet acc.patches sc := by
  induction l with
  | nil => intro acc; rfl
  | cons r t ih =>
    intro acc
    rw [List.foldl_cons, ih (fun r' hr' => hsc r' (List.mem_cons_of_mem r hr'))]
    have hne : r.shortcode ≠ sc := hsc r (List.mem_cons_self r t)
    rw [applyResultsStep]
    by_cases h1 : r.status = "ok"
    · rw [if_pos h1]
      exact patchesGet_set_ne _ _ _ _ hne
    · rw [if_neg h1]
      by_cases h2 : r.status = "not_found"
      · rw [if_pos h2]
        exact patchesGet_set_ne _ _ _ _ hne
      · rw [if_neg h2]

theorem applyFold_get_none_of_no_writer (iso : Int → String) (l : List FetchResult) (sc : String)
    (h : ∀ r ∈ l, r.shortcode = sc → ¬r.status = "ok" ∧ ¬r.status = "not_found") :
    ∀ acc, patchesGet acc.patches sc = none →
      patchesGet (List.foldl (applyResultsStep iso) acc l).patches sc = none := by
  induction l with
  | nil => intro acc hacc; exact hacc
  | cons r t ih =>
    intro acc hacc
    rw [List.foldl_cons]
    apply ih (fun r' hr' => h r' (List.mem_cons_of_mem r hr'))
    rw [applyResultsStep]
    by_cases h1 : r.status = "ok"
    · rw [if_pos h1]
      have hne : r.shortcode ≠ sc := by
        intro he
        exact (h r (List.mem_cons_self r t) he).1 h1
      rw [patchesGet_set_ne _ _ _ _ hne]
      exact hacc
    · rw [if_neg h1]
      by_cases h2 : r.status = "not_found"
      · rw [if_pos h2]
        have hne : r.shortcode ≠ sc := by
          intro he
          exact (h r (List.mem_cons_self r t) he).2 h2
        rw [patchesGet_set_ne _ _ _ _ hne]
        exact hacc
      · rw [if_neg h2]
        exact hacc

theorem applyFold_counts (iso : Int → String) (l : List FetchResult) :
    ∀ acc : ApplyAcc,
      (List.foldl (applyResultsStep iso) acc l).enriched
          = acc.enriched + (List.filter (fun r => decide (r.status = "ok")) l).length
      ∧ (List.foldl (applyResultsStep iso) acc l).deleted
          = acc.deleted + (List.filter (fun r => decide (r.status = "not_found")) l).length
      ∧ (List.foldl (applyResultsStep iso) acc l).failed
          = acc.failed + (List.filter
              (fun r => !decide (r.status = "ok") && !decide (r.status = "not_found")) l).length := by
  induction l with
  | nil => intro acc; simp
  | cons r t ih =>
    intro acc
    rw [List.foldl_cons]
    obtain ⟨ihe, ihd, ihf⟩ := ih (applyResultsStep iso acc r)
    rw [applyResultsStep] at ihe ihd ihf ⊢
    by_cases h1 : r.status = "ok"
    · rw [if_pos h1] at ihe ihd ihf
      refine ⟨?_, ?_, ?_⟩
      · rw [if_pos h1, ihe, List.filter_cons_of_pos (by simp [h1]), List.length_cons]
        simp only []
        omega
      · rw [if_pos h1, ihd, List.filter_cons_of_neg (by simp [h1])]
      · rw [if_pos h1, ihf, List.filter_cons_of_neg (by simp [h1])]
    · rw [if_neg h1] at ihe ihd ihf
      by_cases h2 : r.status = "not_found"
      · rw [if_pos h2] at ihe ihd ihf
        refine ⟨?_, ?_, ?_⟩
        · rw [if_neg h1, if_pos h2, ihe, List.filter_cons_of_neg (by simp [h1])]
        · rw [if_neg h1, if_pos h2, ihd, List.filter_cons_of_pos (by simp [h2]),
            List.length_cons]
          simp only []
          omega
        · rw [if_neg h1, if_pos h2, ihf, List.filter_cons_of_neg (by simp [h1, h2])]
      · rw [if_neg h2] at ihe ihd ihf
        refine ⟨?_, ?_, ?_⟩
        · rw [if_neg h1, if_neg h2, ihe, List.filter_cons_of_neg (by simp [h1])]
        · rw [if_neg h1, if_neg h2, ihd, List.filter_cons_of_neg (by simp [h2])]
        · rw [if_neg h1, if_neg h2, ihf, List.filter_cons_of_pos (by simp [h1, h2]),
            List.length_cons]
          simp only []
          omega

theorem applyFold_length (iso : Int → String) (l : List FetchResult) :
    ∀ acc : ApplyAcc, (List.map FetchResult.shortcode l).Nodup →
      (∀ r ∈ l, patchesGet acc.patches r.shortcode = none) →
      (List.foldl (applyResultsStep iso) acc l).patches.length
        = acc.patches.length + (List.filter
            (fun r => decide (r.status = "ok") || decide (r.status = "not_found")) l).length := by
  induction l with
  | nil => intro acc _ _; simp
  | cons r t ih =>
    intro acc hnd hnone
    rw [List.map_cons, List.nodup_cons] at hnd
    obtain ⟨hhd, htl⟩ := hnd
    rw [List.foldl_cons]
    have hstep_none : ∀ r' ∈ t, patchesGet (applyResultsStep iso acc r).patches r'.shortcode
        = none := by
      intro r' hr'
      have hne : r.shortcode ≠ r'.shortcode := by
        intro he
        exact hhd (he ▸ List.mem_map_of_mem FetchResult.shortcode hr')
      rw [applyResultsStep]
      by_cases h1 : r.status = "ok"
      · rw [if_pos h1]
        rw [patchesGet_set_ne _ _ _ _ hne]
        exact hnone r' (List.mem_cons_of_mem r hr')
      · rw [if_neg h1]
        by_cases h2 : r.status = "not_found"
        · rw [if_pos h2]
          rw [patchesGet_set_ne _ _ _ _ hne]
          exact hnone r' (List.mem_cons_of_mem r hr')
        · rw [if_neg h2]
          exact hnone r' (List.mem_cons_of_mem r hr')
    rw [ih (applyResultsStep iso acc r) htl hstep_none]
    rw [applyResultsStep]
    by_cases h1 : r.status = "ok"
    · rw [if_pos h1, List.filter_cons_of_pos (by simp [h1]), List.length_cons]
      have := patchesSet_length_new acc.patches r.shortcode (okPatch iso r)
        (hnone r (List.mem_cons_self r t))
      simp only [this]
      omega
    · rw [if_neg h1]
      by_cases h2 : r.status = "not_found"
      · rw [if_pos h2, List.filter_cons_of_pos (by simp [h2]), List.length_cons]
        have := patchesSet_length_new acc.patches r.shortcode notFoundPatch
          (hnone r (List.mem_cons_self r t))
        simp only [this]
        omega
      · rw [if_neg h2, List.filter_cons_of_neg (by simp [h1, h2])]

theorem option_or_none_left {α : Type} (b : Option α) : Option.or none b = b := rfl

theorem option_or_some_left {α : Type} (a : α) (b : Option α) :
    Option.or (some a) b = some a := rfl

/-- The exact field contents of the patch built for an `ok` result:
`text` (caption or the `[No caption]` sentinel when empty), the three
author fields, `source = "archive+api"`, and the optional `media`,
`like_count`, `reply_count`, `created_at` (derived from `taken_at`) and
`media_pk` fields, each present exactly when its source value is truthy. -/
theorem okPatch_fields (iso : Int → String) (r : FetchResult) :
    recGet (okPatch iso r) "text"
        = some (.str (pstr (if r.caption = "" then "[No caption]" else r.caption)))
    ∧ recGet (okPatch iso r) "author"
        = some (.dict [("username", .str (pstr r.username)),
                       ("display_name", .str (pstr r.full_name)),
                       ("profile_url",
                        .str (pstr ("https://www.instagram.com/" ++ r.username ++ "/")))])
    ∧ recGet (okPatch iso r) "source" = some (.str (pstr "archive+api"))
    ∧ recGet (okPatch iso r) "media"
        = (if r.media ≠ [] then some (Value.list (List.map mediaVal r.media)) else none)
    ∧ recGet (okPatch iso r) "like_count"
        = (if r.like_count ≠ 0 then some (Value.int r.like_count) else none)
    ∧ recGet (okPatch iso r) "reply_count"
        = (if r.comment_count ≠ 0 then some (Value.int r.comment_count) else none)
    ∧ recGet (okPatch iso r) "created_at"
        = (if r.taken_at ≠ 0 then some (Value.str (pstr (iso r.taken_at))) else none)
    ∧ recGet (okPatch iso r) "media_pk"
        = (if r.pk ≠ "" then some (Value.str (pstr r.pk)) else none) := by
  have cne : ∀ (k : String) (v : Value) (t : Record) (f : String), k ≠ f →
      recGet ((k, v) :: t) f = recGet t f := by
    intro k v t f h
    rw [recGet, if_neg (by simp [h])]
  have cself : ∀ (k : String) (v : Value) (t : Record), recGet ((k, v) :: t) k = some v := by
    intro k v t
    rw [recGet, if_pos (by simp)]
  refine ⟨?_, ?_, ?_, ?_, ?_, ?_, ?_, ?_⟩
  · rw [okPatch, cself]
  · rw [okPatch, cne "text" _ _ "author" (by decide), cself]
  · rw [okPatch, cne "text" _ _ "source" (by decide), cne "author" _ _ "source" (by decide),
      cself]
  · rw [okPatch, cne "text" _ _ "media" (by decide), cne "author" _ _ "media" (by decide),
      cne "source" _ _ "media" (by decide)]
    rw [recGet_append, recGet_single_block_self]
    by_cases hm : r.media ≠ []
    · rw [if_pos hm, option_or_some_left]
    · rw [if_neg hm, option_or_none_left]
      rw [recGet_append, recGet_single_block _ "like_count" _ "media" (by decide),
        option_or_none_left]
      rw [recGet_append, recGet_single_block _ "reply_count" _ "media" (by decide),
        option_or_none_left]
      rw [recGet_append, recGet_single_block _ "created_at" _ "media" (by decide),
        option_or_none_left]
      rw [recGet_single_block _ "media_pk" _ "media" (by decide)]
  · rw [okPatch, cne "text" _ _ "like_count" (by decide),
      cne "author" _ _ "like_count" (by decide), cne "source" _ _ "like_count" (by decide)]
    rw [recGet_append, recGet_single_block _ "media" _ "like_count" (by decide),
      option_or_none_left]
    rw [recGet_append, recGet_single_block_self]
    by_cases hl : r.like_count ≠ 0
    · rw [if_pos hl, option_or_some_left]
    · rw [if_neg hl, option_or_none_left]
      rw [recGet_append, recGet_single_block _ "reply_count" _ "like_count" (by decide),
        option_or_none_left]
      rw [recGet_append, recGet_single_block _ "created_at" _ "like_count" (by decide),
        option_or_none_left]
      rw [recGet_single_block _ "media_pk" _ "like_count" (by decide)]
  · rw [okPatch, cne "text" _ _ "reply_count" (by decide),
      cne "author" _ _ "reply_count" (by decide), cne "source" _ _ "reply_count" (by decide)]
    rw [recGet_append, recGet_single_block _ "media" _ "reply_count" (by decide),
      option_or_none_left]
    rw [recGet_append, recGet_single_block _ "like_count" _ "reply_count" (by decide),
      option_or_none_left]
    rw [recGet_append, recGet_single_block_self]
    by_cases hc : r.comment_count ≠ 0
    · rw [if_pos hc, option_or_some_left]
    · rw [if_neg hc, option_or_none_left]
      rw [recGet_append, recGet_single_block _ "created_at" _ "reply_count" (by decide),
        option_or_none_left]
      rw [recGet_single_block _ "media_pk" _ "reply_count" (by decide)]
  · rw [okPatch, cne "text" _ _ "created_at" (by decide),
      cne "author" _ _ "created_at" (by decide), cne "source" _ _ "created_at" (by decide)]
    rw [recGet_append, recGet_single_block _ "media" _ "created_at" (by decide),
      option_or_none_left]
    rw [recGet_append, recGet_single_block _ "like_count" _ "created_at" (by decide),
      option_or_none_left]
    rw [recGet_append, recGet_single_block _ "reply_count" _ "created_at" (by decide),
      option_or_none_left]
    rw [recGet_append, recGet_single_block_self]
    by_cases ht : r.taken_at ≠ 0
    · rw [if_pos ht, option_or_some_left]
    · rw [if_neg ht, option_or_none_left]
      rw [recGet_single_block _ "media_pk" _ "created_at" (by decide)]
  · rw [okPatch, cne "text" _ _ "media_pk" (by decide),
      cne "author" _ _ "media_pk" (by decide), cne "source" _ _ "media_pk" (by decide)]
    rw [recGet_append, recGet_single_block _ "media" _ "media_pk" (by decide),
      option_or_none_left]
    rw [recGet_append, recGet_single_block _ "like_count" _ "media_pk" (by decide),
      option_or_none_left]
    rw [recGet_append, recGet_single_block _ "reply_count" _ "media_pk" (by decide),
      option_or_none_left]
    rw [recGet_append, recGet_single_block _ "created_at" _ "media_pk" (by decide),
      option_or_none_left]
    rw [recGet_single_block_self]

/-- C2: `apply_results` builds exactly one patch per `ok`/`not_found`
result (keyed by its shortcode): `ok` results get the full metadata patch
(text with the `[No caption]` fallback, author fields,
`source = "archive+api"`, media when present, and the optional counters,
`created_at` derived from `taken_at`, and `media_pk`); `not_found` results
get `{source: "archive:deleted", text: "[Post no longer available]"}`;
`error` and `rate_limited` results put nothing in the patch dict — their
record is untouched — and are only counted as failed. -/
theorem C2_apply_results (iso : Int → String) (results : List FetchResult)
    (hnd : (List.map FetchResult.shortcode results).Nodup) :
    (∀ r ∈ results, r.status = "ok" →
        patchesGet (applyResults iso results).patches r.shortcode = some (okPatch iso r))
    ∧ (∀ r ∈ results, r.status = "not_found" →
        patchesGet (applyResults iso results).patches r.shortcode = some notFoundPatch)
    ∧ (∀ r ∈ results, ¬r.status = "ok" → ¬r.status = "not_found" →
        patchesGet (applyResults iso results).patches r.shortcode = none)
    ∧ (applyResults iso results).patches.length
        = (List.filter (fun r => decide (r.status = "ok") || decide (r.status = "not_found"))
            results).length
    ∧ (applyResults iso results).enriched
        = (List.filter (fun r => decide (r.status = "ok")) results).length
    ∧ (applyResults iso results).deleted
        = (List.filter (fun r => decide (r.status = "not_found")) results).length
    ∧ (applyResults iso results).failed
        = (List.filter (fun r => !decide (r.status = "ok") && !decide (r.status = "not_found"))
            results).length
    ∧ (∀ r' : FetchResult, recGet (okPatch iso r') "text"
          = some (.str (pstr (if r'.caption = "" then "[No caption]" else r'.caption)))
        ∧ recGet (okPatch iso r') "author"
            = some (.dict [("username", .str (pstr r'.username)),
                           ("display_name", .str (pstr r'.full_name)),
                           ("profile_url",
                            .str (pstr ("https://www.instagram.com/" ++ r'.username ++ "/")))])
        ∧ recGet (okPatch iso r') "source" = some (.str (pstr "archive+api"))
        ∧ recGet (okPatch iso r') "media"
            = (if r'.media ≠ [] then some (Value.list (List.map mediaVal r'.media)) else none)
        ∧ recGet (okPatch iso r') "like_count"
            = (if r'.like_count ≠ 0 then some (Value.int r'.like_count) else none)
        ∧ recGet (okPatch iso r') "reply_count"
            = (if r'.comment_count ≠ 0 then some (Value.int r'.comment_count) else none)
        ∧ recGet (okPatch iso r') "created_at"
            = (if r'.taken_at ≠ 0 then some (Value.str (pstr (iso r'.taken_at))) else none)
        ∧ recGet (okPatch iso r') "media_pk"
            = (if r'.pk ≠ "" then some (Value.str (pstr r'.pk)) else none))
    ∧ recGet notFoundPatch "source" = some (.str (pstr "archive:deleted"))
    ∧ recGet notFoundPatch "text" = some (.str (pstr "[Post no longer available]")) := by
  have hwriter : ∀ (r : FetchResult) (l1 l2 : List FetchResult), results = l1 ++ r :: l2 →
      ∀ patch, (applyResultsStep iso (List.foldl (applyResultsStep iso) {} l1) r).patches
          = patchesSet (List.foldl (applyResultsStep iso) {} l1).patches r.shortcode patch →
      patchesGet (applyResults iso results).patches r.shortcode = some patch := by
    intro r l1 l2 hsplit patch hstep
    rw [applyResults, hsplit, List.foldl_append, List.foldl_cons]
    have hl2 : ∀ r' ∈ l2, r'.shortcode ≠ r.shortcode := by
      intro r' hr' he
      rw [hsplit, List.map_append, List.map_cons] at hnd
      rcases List.nodup_append.mp hnd with ⟨_, hcons, _⟩
      exact (List.nodup_cons.mp hcons).1 (he ▸ List.mem_map_of_mem FetchResult.shortcode hr')
    rw [applyFold_get_untouched iso l2 r.shortcode hl2]
    rw [hstep, patchesGet_set_self]
  refine ⟨?_, ?_, ?_, ?_, ?_, ?_, ?_, fun r' => okPatch_fields iso r', rfl, rfl⟩
  · intro r hr hok
    obtain ⟨l1, l2, hsplit⟩ := List.mem_iff_append.mp hr
    apply hwriter r l1 l2 hsplit
    rw [applyResultsStep, if_pos hok]
  · intro r hr hnf
    obtain ⟨l1, l2, hsplit⟩ := List.mem_iff_append.mp hr
    apply hwriter r l1 l2 hsplit
    rw [applyResultsStep, if_neg (by rw [hnf]; decide), if_pos hnf]
  · intro r hr hok hnf
    rw [applyResults]
    apply applyFold_get_none_of_no_writer
    · intro r' hr' hsc
      have : r' = r := List.inj_on_of_nodup_map hnd hr' hr hsc
      rw [this]
      exact ⟨hok, hnf⟩
    · rfl
  · rw [applyResults, applyFold_length iso results {} hnd (fun r _ => rfl)]
    simp
  · simpa using (applyFold_counts iso results {}).1
  · simpa using (applyFold_counts iso results {}).2.1
  · simpa using (applyFold_counts iso results {}).2.2

/-- Witness for C2 on a three-result batch (one `ok`, one `not_found`, one
`error`): the ok and deleted patches are present, the error shortcode is
absent, and exactly the error is counted as failed. -/
theorem C2_apply_results_witness :
    patchesGet (applyResults (fun _ => "1970-01-01T00:00:05+00:00")
        [{ shortcode := "A1", status := "ok", caption := "", username := "u", taken_at := 5,
           pk := "9" },
         { shortcode := "B2", status := "not_found" },
         { shortcode := "C3", status := "error", message := some "boom" }]).patches "A1"
      = some (okPatch (fun _ => "1970-01-01T00:00:05+00:00")
          { shortcode := "A1", status := "ok", caption := "", username := "u", taken_at := 5,
            pk := "9" })
    ∧ patchesGet (applyResults (fun _ => "1970-01-01T00:00:05+00:00")
        [{ shortcode := "A1", status := "ok", caption := "", username := "u", taken_at := 5,
           pk := "9" },
         { shortcode := "B2", status := "not_found" },
         { shortcode := "C3", status := "error", message := some "boom" }]).patches "C3"
      = none
    ∧ (applyResults (fun _ => "1970-01-01T00:00:05+00:00")
        [{ shortcode := "A1", status := "ok", caption := "", username := "u", taken_at := 5,
           pk := "9" },
         { shortcode := "B2", status := "not_found" },
         { shortcode := "C3", status := "error", message := some "boom" }]).failed = 1 := by
  have h := C2_apply_results (fun _ => "1970-01-01T00:00:05+00:00")
    [{ shortcode := "A1", status := "ok", caption := "", username := "u", taken_at := 5,
       pk := "9" },
     { shortcode := "B2", status := "not_found" },
     { shortcode := "C3", status := "error", message := some "boom" }] (by decide)
  refine ⟨h.1 _ (List.mem_cons_self _ _) rfl, ?_, ?_⟩
  · exact h.2.2.1 { shortcode := "C3", status := "error", message := some "boom" }
      (by decide) (by decide) (by decide)
  · rw [h.2.2.2.2.2.2.1]
    decide

/-! ## The media extractor: OCR filtering and deduplication -/

/-- Python `str.strip()` (modelled on ASCII whitespace). -/
def pyStrip (s : String) : String :=
  ⟨((s.data.dropWhile Char.isWhitespace).reverse.dropWhile Char.isWhitespace).reverse⟩

/-- Python `str.lower()` (modelled on ASCII letters). -/
def pyLowerChar (c : Char) : Char :=
  if 'A' ≤ c ∧ c ≤ 'Z' then Char.ofNat (c.toNat + 32) else c

def pyLower (s : String) : String := ⟨List.map pyLowerChar s.data⟩

/-- `MIN_OCR_CONFIDENCE = 0.5` (confidences are modelled as rationals;
written as `mkRat 1 2` so that proofs can evaluate it — the first conjunct
of the C7 theorem records that it equals the literal `0.5`). -/
def MIN_OCR_CONFIDENCE : ℚ := mkRat 1 2

/-- `MIN_TEXT_LENGTH = 2`. -/
def MIN_TEXT_LENGTH : Nat := 2

/-- The result filter of `ocr_image`: keep `(text, conf)` with
`conf >= MIN_OCR_CONFIDENCE and len(text.strip()) >= MIN_TEXT_LENGTH`. -/
def ocrFilter (annotations : List (String × ℚ)) : List (String × ℚ) :=
  List.filter
    (fun tc => decide (MIN_OCR_CONFIDENCE ≤ tc.2)
      && decide (MIN_TEXT_LENGTH ≤ (pyStrip tc.1).length)) annotations

/-- `seen[normalized] = (text.strip(), conf)` (Python dict upsert). -/
def seenInsert : List (String × (String × ℚ)) → String → (String × ℚ) →
    List (String × (String × ℚ))
  | [], k, v => [(k, v)]
  | e :: m, k, v => if e.1 == k then (e.1, v) :: m else e :: seenInsert m k v

/-- `seen.get(normalized)`. -/
def seenGet : List (String × (String × ℚ)) → String → Option (String × ℚ)
  | [], _ => none
  | e :: m, k => if e.1 == k then some e.2 else seenGet m k

/-- The loop body of `deduplicate_ocr_texts`: skip empty normalizations,
keep the first surface form of each normalization unless a strictly higher
confidence arrives. -/
def dedupStep (seen : List (String × (String × ℚ))) (tc : String × ℚ) :
    List (String × (String × ℚ)) :=
  if pyLower (pyStrip tc.1) = "" then seen
  else
    match seenGet seen (pyLower (pyStrip tc.1)) with
    | none => seenInsert seen (pyLower (pyStrip tc.1)) (pyStrip tc.1, tc.2)
    | some entry =>
        if entry.2 < tc.2 then seenInsert seen (pyLower (pyStrip tc.1)) (pyStrip tc.1, tc.2)
        else seen

/-- Insertion of one element into a descending-sorted list, after all
entries with greater-or-equal key (so equal keys keep first-come order). -/
def insertDesc : List (String × ℚ) → (String × ℚ) → List (String × ℚ)
  | [], x => [x]
  | y :: ys, x => if x.2 ≤ y.2 then y :: insertDesc ys x else x :: y :: ys

/-- Python's `sorted(values, key=conf, reverse=True)` is the stable
descending sort by confidence; stable sorts are extensionally unique, and
are modelled here by stable insertion sort. -/
def sortDescByConf (l : List (String × ℚ)) : List (String × ℚ) :=
  List.foldl insertDesc [] l

/-- The deduplicated `(surface form, confidence)` pairs, sorted by
confidence descending. -/
def dedupSortedPairs (texts : List (String × ℚ)) : List (String × ℚ) :=
  sortDescByConf (List.map (·.2) (List.foldl dedupStep [] texts))

/-- `deduplicate_ocr_texts`: the surviving surface forms in descending
confidence order. -/
def deduplicate_ocr_texts (texts : List (String × ℚ)) : List String :=
  List.map (·.1) (dedupSortedPairs texts)

theorem insertDesc_perm (l : List (String × ℚ)) (x : String × ℚ) :
    (insertDesc l x).Perm (x :: l) := by
  induction l with
  | nil => exact List.Perm.refl _
  | cons y ys ih =>
    rw [insertDesc]
    by_cases h : x.2 ≤ y.2
    · rw [if_pos h]
      exact (ih.cons y).trans (List.Perm.swap x y ys)
    · rw [if_neg h]

theorem sortDescByConf_perm (l : List (String × ℚ)) : (sortDescByConf l).Perm l := by
  have main : ∀ (l acc : List (String × ℚ)), (List.foldl insertDesc acc l).Perm (l ++ acc) := by
    intro l
    induction l with
    | nil => intro acc; simp
    | cons x t ih =>
      intro acc
      rw [List.foldl_cons]
      refine (ih (insertDesc acc x)).trans ?_
      refine (List.Perm.append_left t (insertDesc_perm acc x)).trans ?_
      exact List.perm_middle
  simpa using main l []

theorem insertDesc_mem (l : List (String × ℚ)) (x a : String × ℚ)
    (h : a ∈ insertDesc l x) : a = x ∨ a ∈ l :=
  List.mem_cons.mp ((insertDesc_perm l x).mem_iff.mp h)

theorem insertDesc_sorted (l : List (String × ℚ)) (x : String × ℚ)
    (h : l.Pairwise (fun a b => b.2 ≤ a.2)) :
    (insertDesc l x).Pairwise (fun a b => b.2 ≤ a.2) := by
  induction l with
  | nil => simp [insertDesc]
  | cons y ys ih =>
    rw [insertDesc]
    rcases List.pairwise_cons.mp h with ⟨hy, hys⟩
    by_cases hle : x.2 ≤ y.2
    · rw [if_pos hle]
      refine List.pairwise_cons.mpr ⟨?_, ih hys⟩
      intro a ha
      rcases insertDesc_mem ys x a ha with rfl | ha
      · exact hle
      · exact hy a ha
    · rw [if_neg hle]
      refine List.pairwise_cons.mpr ⟨?_, h⟩
      intro a ha
      rcases List.mem_cons.mp ha with rfl | ha
      · exact le_of_not_le hle
      · exact le_trans (hy a ha) (le_of_not_le hle)

theorem sortDescByConf_sorted (l : List (String × ℚ)) :
    (sortDescByConf l).Pairwise (fun a b => b.2 ≤ a.2) := by
  have main : ∀ (l acc : List (String × ℚ)), acc.Pairwise (fun a b => b.2 ≤ a.2) →
      (List.foldl insertDesc acc l).Pairwise (fun a b => b.2 ≤ a.2) := by
    intro l
    induction l with
    | nil => intro acc h; exact h
    | cons x t ih =>
      intro acc h
      rw [List.foldl_cons]
      exact ih _ (insertDesc_sorted acc x h)
  exact main l [] (List.Pairwise.nil)

theorem seenGet_none_not_mem (m : List (String × (String × ℚ))) (k : String)
    (h : seenGet m k = none) : ∀ e ∈ m, e.1 ≠ k := by
  induction m with
  | nil => intro e he; cases he
  | cons a t ih =>
    rw [seenGet] at h
    by_cases hb : (a.1 == k) = true
    · rw [if_pos hb] at h
      cases h
    · rw [if_neg hb] at h
      intro e he
      rcases List.mem_cons.mp he with rfl | he
      · simpa using hb
      · exact ih h e he

theorem seenGet_some_mem (m : List (String × (String × ℚ))) (k : String) (v : String × ℚ)
    (h : seenGet m k = some v) : (k, v) ∈ m := by
  induction m with
  | nil => cases h
  | cons a t ih =>
    rw [seenGet] at h
    by_cases hb : (a.1 == k) = true
    · rw [if_pos hb] at h
      injection h with h2
      have h1 : a.1 = k := by simpa using hb
      have : (k, v) = a := by
        rw [← h1, ← h2]
      rw [this]
      exact List.mem_cons_self a t
    · rw [if_neg hb] at h
      exact List.mem_cons_of_mem a (ih h)

theorem seenInsert_of_none (m : List (String × (String × ℚ))) (k : String) (v : String × ℚ)
    (h : seenGet m k = none) : seenInsert m k v = m ++ [(k, v)] := by
  induction m with
  | nil => rfl
  | cons a t ih =>
    rw [seenGet] at h
    by_cases hb : (a.1 == k) = true
    · rw [if_pos hb] at h
      cases h
    · rw [if_neg hb] at h
      rw [seenInsert, if_neg hb, List.cons_append, ih h]

theorem seenInsert_keys_of_found (m : List (String × (String × ℚ))) (k : String)
    (v : String × ℚ) (h : (seenGet m k).isSome = true) :
    List.map Prod.fst (seenInsert m k v) = List.map Prod.fst m := by
  induction m with
  | nil => cases h
  | cons a t ih =>
    rw [seenGet] at h
    by_cases hb : (a.1 == k) = true
    · rw [seenInsert, if_pos hb, List.map_cons, List.map_cons]
    · rw [if_neg hb] at h
      rw [seenInsert, if_neg hb, List.map_cons, List.map_cons, ih h]

theorem seenInsert_mem_of_found (m : List (String × (String × ℚ))) (k : String)
    (v : String × ℚ) (hnd : (List.map Prod.fst m).Nodup) (hf : (seenGet m k).isSome = true) :
    ∀ e ∈ seenInsert m k v, e = (k, v) ∨ (e ∈ m ∧ e.1 ≠ k) := by
  induction m with
  | nil => cases hf
  | cons a t ih =>
    rw [List.map_cons, List.nodup_cons] at hnd
    obtain ⟨hhd, htl⟩ := hnd
    rw [seenGet] at hf
    intro e he
    by_cases hb : (a.1 == k) = true
    · rw [seenInsert, if_pos hb] at he
      have hak : a.1 = k := by simpa using hb
      rcases List.mem_cons.mp he with rfl | he
      · exact Or.inl (by rw [hak])
      · refine Or.inr ⟨List.mem_cons_of_mem a he, ?_⟩
        intro hek
        apply hhd
        rw [hak, ← hek]
        exact List.mem_map_of_mem Prod.fst he
    · rw [if_neg hb] at hf
      rw [seenInsert, if_neg hb] at he
      rcases List.mem_cons.mp he with rfl | he
      · exact Or.inr ⟨List.mem_cons_self e t, by simpa using hb⟩
      · rcases ih htl hf e he with h | ⟨h1, h2⟩
        · exact Or.inl h
        · exact Or.inr ⟨List.mem_cons_of_mem a h1, h2⟩

theorem mem_seenGet_of_nodup (m : List (String × (String × ℚ)))
    (hnd : (List.map Prod.fst m).Nodup) : ∀ e ∈ m, seenGet m e.1 = some e.2 := by
  induction m with
  | nil => intro e he; cases he
  | cons a t ih =>
    rw [List.map_cons, List.nodup_cons] at hnd
    obtain ⟨hhd, htl⟩ := hnd
    intro e he
    rcases List.mem_cons.mp he with rfl | he
    · rw [seenGet, if_pos (by simp)]
    · have hne : (a.1 == e.1) = false := by
        simp only [beq_eq_false_iff_ne, ne_eq]
        intro hae
        exact hhd (hae ▸ List.mem_map_of_mem Prod.fst he)
      rw [seenGet, hne]
      simp only [Bool.false_eq_true, if_false]
      exact ih htl e he

/-- The loop invariant of `deduplicate_ocr_texts`: normalized keys are
unique and nonempty, each kept pair is a stripped input pair whose
normalization is its key, its confidence dominates every processed pair
with the same normalization, and every processed pair with a nonempty
normalization has a representative. -/
def DedupInv (processed : List (String × ℚ)) (seen : List (String × (String × ℚ))) : Prop :=
  (List.map Prod.fst seen).Nodup
  ∧ (∀ e ∈ seen, pyLower e.2.1 = e.1 ∧ e.1 ≠ ""
      ∧ (∃ tc ∈ processed, pyStrip tc.1 = e.2.1 ∧ tc.2 = e.2.2)
      ∧ (∀ tc ∈ processed, pyLower (pyStrip tc.1) = e.1 → tc.2 ≤ e.2.2))
  ∧ (∀ tc ∈ processed, pyLower (pyStrip tc.1) ≠ "" →
      pyLower (pyStrip tc.1) ∈ List.map Prod.fst seen)

theorem dedupStep_inv (processed : List (String × ℚ)) (seen : List (String × (String × ℚ)))
    (tc : String × ℚ) (h : DedupInv processed seen) :
    DedupInv (processed ++ [tc]) (dedupStep seen tc) := by
  obtain ⟨hnd, hent, hcomp⟩ := h
  rw [dedupStep]
  by_cases he : pyLower (pyStrip tc.1) = ""
  · rw [if_pos he]
    refine ⟨hnd, ?_, ?_⟩
    · intro e hee
      obtain ⟨h1, h2, ⟨tc0, htc0, hs1, hs2⟩, hmax⟩ := hent e hee
      refine ⟨h1, h2, ⟨tc0, List.mem_append_left _ htc0, hs1, hs2⟩, ?_⟩
      intro tc' htc' hnorm
      rcases List.mem_append.mp htc' with hp | hp
      · exact hmax tc' hp hnorm
      · rw [List.mem_singleton.mp hp] at hnorm
        rw [he] at hnorm
        exact absurd hnorm.symm h2
    · intro tc' htc' hne
      rcases List.mem_append.mp htc' with hp | hp
      · exact hcomp tc' hp hne
      · rw [List.mem_singleton.mp hp] at hne
        exact absurd he hne
  · rw [if_neg he]
    rcases hg : seenGet seen (pyLower (pyStrip tc.1)) with _ | entry
    · rw [seenInsert_of_none _ _ _ hg]
      have hnotin : pyLower (pyStrip tc.1) ∉ List.map Prod.fst seen := by
        intro hmem
        rcases List.mem_map.mp hmem with ⟨e, hee, hfst⟩
        exact seenGet_none_not_mem seen _ hg e hee hfst
      refine ⟨?_, ?_, ?_⟩
      · rw [List.map_append]
        rw [List.nodup_append]
        refine ⟨hnd, by simp, ?_⟩
        intro a ha hb
        have : a = pyLower (pyStrip tc.1) := by simpa using hb
        rw [this] at ha
        exact hnotin ha
      · intro e hee
        rcases List.mem_append.mp hee with hee | hee
        · obtain ⟨h1, h2, ⟨tc0, htc0, hs1, hs2⟩, hmax⟩ := hent e hee
          refine ⟨h1, h2, ⟨tc0, List.mem_append_left _ htc0, hs1, hs2⟩, ?_⟩
          intro tc' htc' hnorm
          rcases List.mem_append.mp htc' with hp | hp
          · exact hmax tc' hp hnorm
          · rw [List.mem_singleton.mp hp] at hnorm
            exact absurd hnorm.symm (seenGet_none_not_mem seen _ hg e hee)
        · rw [List.mem_singleton.mp hee]
          refine ⟨rfl, he, ⟨tc, List.mem_append_right _ (by simp), rfl, rfl⟩, ?_⟩
          intro tc' htc' hnorm
          rcases List.mem_append.mp htc' with hp | hp
          · exfalso
            apply hnotin
            have hnorm' : pyLower (pyStrip tc'.1) = pyLower (pyStrip tc.1) := hnorm
            rw [← hnorm']
            apply hcomp tc' hp
            rw [hnorm']
            exact he
          · rw [List.mem_singleton.mp hp]
      · intro tc' htc' hne
        rw [List.map_append]
        rcases List.mem_append.mp htc' with hp | hp
        · exact List.mem_append_left _ (hcomp tc' hp hne)
        · rw [List.mem_singleton.mp hp]
          apply List.mem_append_right
          simp
    · show DedupInv (processed ++ [tc])
          (if entry.2 < tc.2 then seenInsert seen (pyLower (pyStrip tc.1)) (pyStrip tc.1, tc.2)
           else seen)
      by_cases hlt : entry.2 < tc.2
      · rw [if_pos hlt]
        have hf : (seenGet seen (pyLower (pyStrip tc.1))).isSome = true := by rw [hg]; rfl
        have hks := seenInsert_keys_of_found seen _ (pyStrip tc.1, tc.2) hf
        refine ⟨by rw [hks]; exact hnd, ?_, ?_⟩
        · intro e hee
          rcases seenInsert_mem_of_found seen _ _ hnd hf e hee with rfl | ⟨hee, hne⟩
          · refine ⟨rfl, he, ⟨tc, List.mem_append_right _ (by simp), rfl, rfl⟩, ?_⟩
            intro tc' htc' hnorm
            rcases List.mem_append.mp htc' with hp | hp
            · have hold := hent (pyLower (pyStrip tc.1), entry)
                (seenGet_some_mem seen _ entry hg)
              exact le_trans (hold.2.2.2 tc' hp hnorm) (le_of_lt hlt)
            · rw [List.mem_singleton.mp hp]
          · obtain ⟨h1, h2, ⟨tc0, htc0, hs1, hs2⟩, hmax⟩ := hent e hee
            refine ⟨h1, h2, ⟨tc0, List.mem_append_left _ htc0, hs1, hs2⟩, ?_⟩
            intro tc' htc' hnorm
            rcases List.mem_append.mp htc' with hp | hp
            · exact hmax tc' hp hnorm
            · rw [List.mem_singleton.mp hp] at hnorm
              exact absurd hnorm.symm hne
        · intro tc' htc' hne
          rw [hks]
          rcases List.mem_append.mp htc' with hp | hp
          · exact hcomp tc' hp hne
          · rw [List.mem_singleton.mp hp]
            exact List.mem_map_of_mem Prod.fst (seenGet_some_mem seen _ entry hg)
      · rw [if_neg hlt]
        refine ⟨hnd, ?_, ?_⟩
        · intro e hee
          obtain ⟨h1, h2, ⟨tc0, htc0, hs1, hs2⟩, hmax⟩ := hent e hee
          refine ⟨h1, h2, ⟨tc0, List.mem_append_left _ htc0, hs1, hs2⟩, ?_⟩
          intro tc' htc' hnorm
          rcases List.mem_append.mp htc' with hp | hp
          · exact hmax tc' hp hnorm
          · rw [List.mem_singleton.mp hp] at hnorm ⊢
            have hkey := mem_seenGet_of_nodup seen hnd e hee
            rw [← hnorm] at hkey
            rw [hg] at hkey
            injection hkey with hkey
            rw [← hkey]
            exact le_of_not_lt hlt
        · intro tc' htc' hne
          rcases List.mem_append.mp htc' with hp | hp
          · exact hcomp tc' hp hne
          · rw [List.mem_singleton.mp hp]
            exact List.mem_map_of_mem Prod.fst (seenGet_some_mem seen _ entry hg)

theorem dedupFold_inv : ∀ (rest processed : List (String × ℚ))
    (seen : List (String × (String × ℚ))),
    DedupInv processed seen → DedupInv (processed ++ rest) (List.foldl dedupStep seen rest) := by
  intro rest
  induction rest with
  | nil => intro processed seen h; simpa using h
  | cons tc t ih =>
    intro processed seen h
    rw [List.foldl_cons]
    have hstep := ih (processed ++ [tc]) (dedupStep seen tc) (dedupStep_inv processed seen tc h)
    rwa [List.append_assoc, List.singleton_append] at hstep

theorem dedup_inv_final (texts : List (String × ℚ)) :
    DedupInv texts (List.foldl dedupStep [] texts) := by
  have h0 : DedupInv [] [] := by
    refine ⟨by simp, ?_, ?_⟩
    · intro e he
      cases he
    · intro tc h
      cases h
  have := dedupFold_inv texts [] [] h0
  simpa using this

theorem pairwise_imp_of_mem {α : Type} (l : List α) (R S : α → α → Prop)
    (h : ∀ a ∈ l, ∀ b ∈ l, R a b → S a b) (hp : l.Pairwise R) : l.Pairwise S := by
  induction l with
  | nil => exact List.Pairwise.nil
  | cons a t ih =>
    rcases List.pairwise_cons.mp hp with ⟨ha, ht⟩
    refine List.pairwise_cons.mpr ⟨?_, ?_⟩
    · intro b hb
      exact h a (List.mem_cons_self a t) b (List.mem_cons_of_mem a hb) (ha b hb)
    · exact ih (fun x hx y hy => h x (List.mem_cons_of_mem a hx) y (List.mem_cons_of_mem a hy))
        ht

/-- C7: the OCR pipeline keeps only pairs with confidence ≥ 0.5 and
stripped length ≥ 2, deduplicates across the whole post by
case-insensitive whitespace-trimmed comparison keeping the
highest-confidence surface form, and returns the surviving surface forms
in descending confidence order; in particular
`[("Hello", 0.9), ("hello", 0.95), ("HELLO  ", 0.8)]` yields exactly
`["hello"]` in every one of the six orderings. -/
theorem C7_ocr_filter_dedup (annotations : List (String × ℚ)) :
    (MIN_OCR_CONFIDENCE = (0.5 : ℚ) ∧ MIN_TEXT_LENGTH = 2)
    ∧ (∀ tc : String × ℚ, tc ∈ ocrFilter annotations ↔ tc ∈ annotations
        ∧ MIN_OCR_CONFIDENCE ≤ tc.2 ∧ MIN_TEXT_LENGTH ≤ (pyStrip tc.1).length)
    ∧ deduplicate_ocr_texts (ocrFilter annotations)
        = List.map (·.1) (dedupSortedPairs (ocrFilter annotations))
    ∧ (dedupSortedPairs (ocrFilter annotations)).Pairwise (fun a b => b.2 ≤ a.2)
    ∧ (deduplicate_ocr_texts (ocrFilter annotations)).Pairwise
        (fun a b => pyLower a ≠ pyLower b)
    ∧ (∀ p ∈ dedupSortedPairs (ocrFilter annotations),
        (∃ tc ∈ ocrFilter annotations, pyStrip tc.1 = p.1 ∧ tc.2 = p.2)
        ∧ (∀ tc ∈ ocrFilter annotations, pyLower (pyStrip tc.1) = pyLower p.1 → tc.2 ≤ p.2))
    ∧ (deduplicate_ocr_texts (ocrFilter [("Hello", 0.9), ("hello", 0.95), ("HELLO  ", 0.8)])
          = ["hello"]
      ∧ deduplicate_ocr_texts (ocrFilter [("Hello", 0.9), ("HELLO  ", 0.8), ("hello", 0.95)])
          = ["hello"]
      ∧ deduplicate_ocr_texts (ocrFilter [("hello", 0.95), ("Hello", 0.9), ("HELLO  ", 0.8)])
          = ["hello"]
      ∧ deduplicate_ocr_texts (ocrFilter [("hello", 0.95), ("HELLO  ", 0.8), ("Hello", 0.9)])
          = ["hello"]
      ∧ deduplicate_ocr_texts (ocrFilter [("HELLO  ", 0.8), ("Hello", 0.9), ("hello", 0.95)])
          = ["hello"]
      ∧ deduplicate_ocr_texts (ocrFilter [("HELLO  ", 0.8), ("hello", 0.95), ("Hello", 0.9)])
          = ["hello"]) := by
  have e9 : (0.9 : ℚ) = mkRat 9 10 := by norm_num [Rat.div_def']
  have e95 : (0.95 : ℚ) = mkRat 95 100 := by norm_num [Rat.div_def']
  have e8 : (0.8 : ℚ) = mkRat 8 10 := by norm_num [Rat.div_def']
  obtain ⟨hnd, hent, _⟩ := dedup_inv_final (ocrFilter annotations)
  have hperm := sortDescByConf_perm
    (List.map (·.2) (List.foldl dedupStep [] (ocrFilter annotations)))
  refine ⟨⟨by rw [MIN_OCR_CONFIDENCE]; norm_num [Rat.div_def'], rfl⟩, ?_, rfl, ?_, ?_, ?_, ?_⟩
  · intro tc
    rw [ocrFilter, List.mem_filter]
    simp only [Bool.and_eq_true, decide_eq_true_eq]
  · exact sortDescByConf_sorted _
  · rw [deduplicate_ocr_texts]
    rw [List.pairwise_map]
    rw [dedupSortedPairs]
    have hvals : (List.map (·.2) (List.foldl dedupStep [] (ocrFilter annotations))).Pairwise
        (fun v1 v2 : String × ℚ => pyLower v1.1 ≠ pyLower v2.1) := by
      rw [List.pairwise_map]
      refine pairwise_imp_of_mem _ _ _ ?_ (List.pairwise_map.mp hnd)
      intro a ha b hb hab hlow
      apply hab
      rw [← (hent a ha).1, ← (hent b hb).1]
      exact hlow
    exact (List.Perm.pairwise_iff (fun hxy => Ne.symm hxy) hperm).mpr hvals
  · intro p hp
    have hpv : p ∈ List.map (·.2) (List.foldl dedupStep [] (ocrFilter annotations)) :=
      hperm.mem_iff.mp hp
    rcases List.mem_map.mp hpv with ⟨e, hee, hep⟩
    obtain ⟨h1, _, ⟨tc0, htc0, hs1, hs2⟩, hmax⟩ := hent e hee
    refine ⟨⟨tc0, htc0, by rw [hs1, hep], by rw [hs2, hep]⟩, ?_⟩
    intro tc htc hlow
    have : pyLower (pyStrip tc.1) = e.1 := by
      rw [hlow, ← hep, h1]
    have hle := hmax tc htc this
    rw [← hep]
    exact hle
  · refine ⟨?_, ?_, ?_, ?_, ?_, ?_⟩ <;>
    · simp only [e9, e95, e8]
      decide

/-! ### media_extractor.run_extraction -/

/-- One media entry of a candidate post (`m["media_type"]`, `m["local_path"]`;
an absent/None `local_path` is modelled as the empty string, which is
exactly Python's falsiness test on it). -/
structure XMedia where
  media_type : String
  local_path : String
deriving DecidableEq

/-- One candidate post returned by `get_extractable_posts`. -/
structure Candidate where
  id : String
  media : List XMedia
deriving DecidableEq

/-- The ambient effects of `run_extraction`: `Path(p).exists()`, the
`audio_transcript` and `ocr_texts` fields of `process_video(p)`, the pair
list of `ocr_image(p)` after filtering, and `datetime.now(...).isoformat()`. -/
structure ExtractorEnv where
  pathExists : String → Bool
  videoTranscript : String → String
  videoOcr : String → List String
  imageOcr : String → List (String × ℚ)
  now : String

/-- `n_videos`: run-global count over ALL candidates of media entries with
`media_type == "video"` and truthy `local_path`. -/
def nVideos (cands : List Candidate) : Nat :=
  List.countP (fun m => m.media_type == "video" && m.local_path != "")
    (List.foldr (fun p acc => p.media ++ acc) [] cands)

/-- One iteration of `for m in candidate.get("media", [])`: the accumulator
is `(extraction["audio_transcripts"], post_ocr_all)`. -/
def mediaStep (env : ExtractorEnv) (skipW skipO : Bool)
    (acc : List String × List (String × ℚ)) (m : XMedia) :
    List String × List (String × ℚ) :=
  if m.local_path = "" then acc
  else if env.pathExists m.local_path = false then acc
  else if m.media_type = "video" then
    ((if env.videoTranscript m.local_path ≠ "" ∧ skipW = false
      then acc.1 ++ [env.videoTranscript m.local_path] else acc.1),
     (if skipO = false
      then acc.2 ++ (env.videoOcr m.local_path).map (fun t => (t, (1 : ℚ)))
      else acc.2))
  else if m.media_type = "image" then
    (if skipO = false then (acc.1, acc.2 ++ env.imageOcr m.local_path) else acc)
  else acc

/-- The value of `extraction["extraction_status"]` after the two sequential
overwrites at the end of the candidate loop (initially `"complete"`; set to
`"partial:no_audio"` if `skip_whisper and n_videos > 0`; then set to
`"partial:no_ocr"` if `skip_ocr`). -/
def statusStep1 (skipW : Bool) (nv : Nat) : String :=
  if skipW = true ∧ 0 < nv then "partial:no_audio" else "complete"

def extractionStatus (skipW skipO : Bool) (nv : Nat) : String :=
  if skipO = true then "partial:no_ocr" else statusStep1 skipW nv

/-- The `extraction` dict built for one candidate. -/
structure Extraction where
  audio_transcripts : List String
  ocr_texts : List String
  extracted_at : String
  extraction_status : String

def extractionFor (env : ExtractorEnv) (skipW skipO : Bool) (nv : Nat)
    (c : Candidate) : Extraction :=
  { audio_transcripts := (c.media.foldl (mediaStep env skipW skipO) ([], [])).1,
    ocr_texts :=
      deduplicate_ocr_texts ((c.media.foldl (mediaStep env skipW skipO) ([], [])).2),
    extracted_at := env.now,
    extraction_status := extractionStatus skipW skipO nv }

def extractionVal (e : Extraction) : Value :=
  .dict [("audio_transcripts", .list (e.audio_transcripts.map (fun s => .str (pstr s)))),
         ("ocr_texts", .list (e.ocr_texts.map (fun s => .str (pstr s)))),
         ("extracted_at", .str (pstr e.extracted_at)),
         ("extraction_status", .str (pstr e.extraction_status))]

/-- `pending_patches` accumulated over the whole run: each candidate
contributes `pending_patches[post_id] = {"extracted_text": extraction}`. -/
def runExtractionPatches (env : ExtractorEnv) (skipW skipO : Bool)
    (cands : List Candidate) : List (String × List (String × Value)) :=
  cands.map (fun c =>
    (c.id, [("extracted_text",
             extractionVal (extractionFor env skipW skipO (nVideos cands) c))]))

theorem patchesGet_map_of_nodup (f : Candidate → List (String × Value))
    (cands : List Candidate) (c : Candidate) (hc : c ∈ cands)
    (hnd : (cands.map (·.id)).Nodup) :
    patchesGet (cands.map (fun x => (x.id, f x))) c.id = some (f c) := by
  induction cands with
  | nil => cases hc
  | cons a t ih =>
    rcases List.mem_cons.mp hc with h | h
    · subst h
      show (if c.id == c.id then _ else _) = _
      rw [if_pos (by simp)]
    · have hne : a.id ≠ c.id := by
        intro he
        have : c.id ∈ t.map (·.id) := List.mem_map_of_mem _ h
        rw [← he] at this
        exact (List.nodup_cons.mp hnd).1 this
      show (if a.id == c.id then _ else _) = _
      rw [if_neg (by simpa using hne)]
      exact ih h (List.nodup_cons.mp hnd).2

def envC8 : ExtractorEnv :=
  { pathExists := fun _ => true,
    videoTranscript := fun _ => "a transcript",
    videoOcr := fun _ => [],
    imageOcr := fun _ => [],
    now := "2026-01-01T00:00:00+00:00" }

def candsC8 : List Candidate :=
  [{ id := "A", media := [{ media_type := "video", local_path := "/v.mp4" }] },
   { id := "B", media := [{ media_type := "image", local_path := "/i.jpg" }] }]

/-- C8 counterexample: with `skip_whisper = True`, `skip_ocr = False` and two
candidates — post "A" holding one video and post "B" holding only an image —
the patch written for "B" is marked `"partial:no_audio"` even though record
"B" has no video at all, because `n_videos` is computed over all candidates
of the run, not per record; the claim promises `"complete"` for "B". -/
theorem C8_counterexample :
    (∀ m ∈ (candsC8.get ⟨1, by decide⟩).media, m.media_type ≠ "video")
    ∧ patchesGet (runExtractionPatches envC8 true false candsC8)
        (candsC8.get ⟨1, by decide⟩).id
      = some [("extracted_text",
               extractionVal { audio_transcripts := [], ocr_texts := [],
                               extracted_at := "2026-01-01T00:00:00+00:00",
                               extraction_status := "partial:no_audio" })]
    ∧ "partial:no_audio" ≠ "complete" := by
  refine ⟨by decide, ?_, by decide⟩
  rfl

/-- C8 (amended): for every candidate of a run whose post ids are distinct,
the pending patch recorded for that candidate has exactly one field,
`extracted_text`, whose value is the four-field extraction dict
`{audio_transcripts, ocr_texts, extracted_at, extraction_status}` with
`extracted_at = now()`; the status collapses to `"partial:no_ocr"` when OCR
was skipped, else `"partial:no_audio"` when Whisper was skipped AND the RUN
(not the record) contains at least one video with a local path, else
`"complete"` — and with nothing skipped it is always `"complete"`. -/
theorem C8_run_extraction_patch (env : ExtractorEnv) (skipW skipO : Bool)
    (cands : List Candidate) (c : Candidate) (hc : c ∈ cands)
    (hnd : (cands.map (·.id)).Nodup) :
    ∃ e : Extraction,
      patchesGet (runExtractionPatches env skipW skipO cands) c.id
        = some [("extracted_text", extractionVal e)]
      ∧ e.extracted_at = env.now
      ∧ e.audio_transcripts = (c.media.foldl (mediaStep env skipW skipO) ([], [])).1
      ∧ e.ocr_texts
          = deduplicate_ocr_texts ((c.media.foldl (mediaStep env skipW skipO) ([], [])).2)
      ∧ e.extraction_status
          = (if skipO = true then "partial:no_ocr"
             else if skipW = true ∧ 0 < nVideos cands then "partial:no_audio"
             else "complete")
      ∧ (skipO = false → skipW = false → e.extraction_status = "complete") := by
  refine ⟨extractionFor env skipW skipO (nVideos cands) c, ?_, rfl, rfl, rfl, ?_, ?_⟩
  · exact patchesGet_map_of_nodup
      (fun x => [("extracted_text",
                  extractionVal (extractionFor env skipW skipO (nVideos cands) x))])
      cands c hc hnd
  · show extractionStatus skipW skipO (nVideos cands) = _
    rw [extractionStatus, statusStep1]
  · intro ho hw
    show extractionStatus skipW skipO (nVideos cands) = _
    rw [extractionStatus, statusStep1, ho, hw]
    simp

theorem C8_run_extraction_patch_witness :
    ({ id := "A", media := [{ media_type := "video", local_path := "/v.mp4" }] }
        : Candidate) ∈ candsC8
    ∧ (candsC8.map (·.id)).Nodup
    ∧ ∃ e : Extraction,
      patchesGet (runExtractionPatches envC8 false false candsC8) "A"
        = some [("extracted_text", extractionVal e)]
      ∧ e.extracted_at = "2026-01-01T00:00:00+00:00"
      ∧ e.extraction_status = "complete" := by
  refine ⟨by decide, by decide, ?_⟩
  obtain ⟨e, h1, h2, _, _, _, h6⟩ := C8_run_extraction_patch envC8 false false candsC8
    { id := "A", media := [{ media_type := "video", local_path := "/v.mp4" }] }
    (by decide) (by decide)
  exact ⟨e, h1, h2, h6 rfl rfl⟩
